import Mathlib

/-!
# chatbygo: the connection hub, the connection pumps and the envelope codec

A shallow embedding of `src/server/main.go`.

* A `*Client` pointer is a natural number (`Conn`); the clients a pointer refers
  to live in `ClientManager.heap`.
* A Go channel `chan []byte` made by `make(chan []byte)` is a `Chan`: a closed
  flag and the sequence of messages that have been accepted by the channel,
  oldest first.
* The goroutine at the other end of a client's channel (`Client.write`) is the
  environment of the hub.  At each hub event it is, for every client, in one of
  three situations (`Pump`), which decides how a send on that channel ends.
* One iteration of the `for { select { ... } }` loop of `ClientManager.start`
  is `ClientManager.startStep`; the loop over the events received so far is
  `ClientManager.start`.
* Go panics (close of a closed channel, send on a closed channel) and a hub
  that is parked for ever in a blocking send are outcomes of their own.
* The iteration order of a Go map is unspecified; here the keys of
  `manager.clients` are a list and `range` follows the list.  Statements made
  for every manager hold for every order of that list, and `startStep_order`
  shows that a handler run from a well-formed manager ends the same way, with
  the same keys and channels, whatever the order.
-/

namespace Chat

/-- A `*Client` pointer. -/
abbrev Conn := Nat

/-- A `[]byte` message as it travels through a channel. -/
abbrev Bytes := String

/-- The struct `Message` (main.go 27-31); an empty string is an absent field. -/
structure Message where
  Sender : String := ""
  Recipient : String := ""
  Content : String := ""
deriving DecidableEq, Repr

/-- A channel `chan []byte`: whether it has been closed, and the messages it has
accepted so far, oldest first. -/
structure Chan where
  closed : Bool := false
  queue : List Bytes := []
deriving DecidableEq, Repr

/-- The struct `Client` (main.go 20-24), reduced to what the hub touches: the
channel `send`. -/
structure Client where
  send : Chan := {}
deriving DecidableEq, Repr

/-- What the receiving end of a client's channel is doing while the hub handles
one event.
* `waiting`: `Client.write` is parked in `<-c.send`; any send succeeds at once.
* `busy`: `Client.write` is elsewhere and will come back to `<-c.send`; a
  `select` with `default` takes the default branch, a blocking send waits and
  then succeeds.
* `stalled`: nothing will ever receive from the channel again; a `select` with
  `default` takes the default branch, a blocking send never returns. -/
inductive Pump where
  | waiting
  | busy
  | stalled
deriving DecidableEq, Repr

/-- The struct `ClientManager` (main.go 12-17) without its three event
channels, whose traffic is the list of `Input`s given to `start`: the keys of
the map `clients` (every stored value is `true`) and the clients the keys point
to. -/
structure ClientManager where
  clients : List Conn
  heap : Conn → Client

/-- What the hub receives on one of its three channels. -/
inductive Event where
  | register (conn : Conn)
  | unregister (conn : Conn)
  | broadcast (message : Bytes)
deriving DecidableEq, Repr

/-- One event together with the situation of every client's outbound pump while
the event is handled. -/
structure Input where
  ev : Event
  pump : Conn → Pump

/-- How the handling of an event ends: the handler returns with a new manager,
the hub goroutine is parked for ever in a blocking send, or the process
panics. -/
inductive Outcome where
  | ok (manager : ClientManager)
  | blocked
  | panic

/-- The manager of main.go 34-39: no clients; every channel is as
`make(chan []byte)` in `wsPage` creates it, open and without traffic. -/
def ClientManager.empty : ClientManager :=
  { clients := [], heap := fun _ => {} }

/-- The channel `conn.send`. -/
def ClientManager.chan (manager : ClientManager) (conn : Conn) : Chan :=
  (manager.heap conn).send

/-- A send on `conn.send` that goes through: the message is appended. -/
def ClientManager.enqueue (manager : ClientManager) (conn : Conn) (message : Bytes) :
    ClientManager :=
  { manager with
    heap := fun d =>
      if d = conn then
        { send := { closed := (manager.chan conn).closed,
                    queue := (manager.chan conn).queue ++ [message] } }
      else manager.heap d }

/-- The effect of `close(conn.send)` on an open channel. -/
def ClientManager.close (manager : ClientManager) (conn : Conn) : ClientManager :=
  { manager with
    heap := fun d =>
      if d = conn then
        { send := { closed := true, queue := (manager.chan conn).queue } }
      else manager.heap d }

/-- The effect of `delete(manager.clients, conn)`. -/
def ClientManager.delete (manager : ClientManager) (conn : Conn) : ClientManager :=
  { manager with clients := manager.clients.filter (fun d => decide (d ≠ conn)) }

/-- The effect of `manager.clients[conn] = true`. -/
def ClientManager.insert (manager : ClientManager) (conn : Conn) : ClientManager :=
  { manager with
    clients := if conn ∈ manager.clients then manager.clients else manager.clients ++ [conn] }

/-- The loop of `ClientManager.send` (main.go 75-80) over the keys still to be
visited: `if conn != ignore { conn.send <- message }`, a blocking send.  It
panics on a closed channel, never returns when nothing will receive, and else
hands the message over. -/
def ClientManager.sendLoop (pump : Conn → Pump) (message : Bytes) (ignore : Conn) :
    List Conn → ClientManager → Outcome
  | [], manager => Outcome.ok manager
  | conn :: rest, manager =>
    if conn ≠ ignore then
      if (manager.chan conn).closed = true then Outcome.panic
      else if pump conn = Pump.stalled then Outcome.blocked
      else ClientManager.sendLoop pump message ignore rest (manager.enqueue conn message)
    else ClientManager.sendLoop pump message ignore rest manager

/-- The method `ClientManager.send` (main.go 74-81). -/
def ClientManager.send (manager : ClientManager) (pump : Conn → Pump) (message : Bytes)
    (ignore : Conn) : Outcome :=
  ClientManager.sendLoop pump message ignore manager.clients manager

/-- The loop of the broadcast case (main.go 61-68) over the keys still to be
visited: `select { case conn.send <- message: default: close(conn.send);
delete(manager.clients, conn) }`.  A send case on a closed channel panics; on an
open channel the send case is taken exactly when a receiver is waiting. -/
def ClientManager.broadcastLoop (pump : Conn → Pump) (message : Bytes) :
    List Conn → ClientManager → Outcome
  | [], manager => Outcome.ok manager
  | conn :: rest, manager =>
    if (manager.chan conn).closed = true then Outcome.panic
    else if pump conn = Pump.waiting then
      ClientManager.broadcastLoop pump message rest (manager.enqueue conn message)
    else
      ClientManager.broadcastLoop pump message rest ((manager.close conn).delete conn)

/-- The envelope of the join notice (main.go 47). -/
def connectedNotice : Message := { Content := "/A new socket has connected." }

/-- The envelope of the leave notice (main.go 55). -/
def disconnectedNotice : Message := { Content := "/A socket has disconnected." }

/-- One iteration of the loop of `ClientManager.start` (main.go 43-69), for the
event `i.ev` received while the pumps are as `i.pump` says.  `marshal` is
`json.Marshal` on a `Message`. -/
def ClientManager.startStep (marshal : Message → Bytes) (manager : ClientManager)
    (i : Input) : Outcome :=
  match i.ev with
  | Event.register conn =>
    (manager.insert conn).send i.pump (marshal connectedNotice) conn
  | Event.unregister conn =>
    if conn ∈ manager.clients then
      if (manager.chan conn).closed = true then Outcome.panic
      else ((manager.close conn).delete conn).send i.pump (marshal disconnectedNotice) conn
    else Outcome.ok manager
  | Event.broadcast message =>
    ClientManager.broadcastLoop i.pump message manager.clients manager

/-- The loop of `ClientManager.start` (main.go 41-71) run over the events
received so far; it stops where a handler does not return. -/
def ClientManager.start (marshal : Message → Bytes) :
    ClientManager → List Input → Outcome
  | manager, [] => Outcome.ok manager
  | manager, i :: rest =>
    match ClientManager.startStep marshal manager i with
    | Outcome.ok next => ClientManager.start marshal next rest
    | Outcome.blocked => Outcome.blocked
    | Outcome.panic => Outcome.panic

/-- The events `Client.read` (main.go 84-103) submits to the hub for the
frames `frames` read before `ReadMessage` fails: one broadcast per frame, of
the envelope tagged with the client's id, then `unregister` from the error
branch and `unregister` once more from the deferred function. -/
def Client.read (marshal : Message → Bytes) (c : Conn) (id : String)
    (frames : List String) : List Event :=
  frames.map (fun message => Event.broadcast (marshal { Sender := id, Content := message }))
    ++ [Event.unregister c, Event.unregister c]

/-- The invariant of the Live Connection Set: every key of the map is stored
once and points to a client whose channel has not been closed. -/
def ClientManager.WellFormed (manager : ClientManager) : Prop :=
  manager.clients.Nodup ∧ ∀ c ∈ manager.clients, (manager.chan c).closed = false

instance (manager : ClientManager) : Decidable manager.WellFormed :=
  inferInstanceAs (Decidable
    (manager.clients.Nodup ∧ ∀ c ∈ manager.clients, (manager.chan c).closed = false))

/-- The connections of the `register` events of a run, in order. -/
def registrations : List Input → List Conn
  | [] => []
  | i :: rest =>
    match i.ev with
    | Event.register conn => conn :: registrations rest
    | _ => registrations rest

/-- Every connection is registered at most once, as `wsPage` does (main.go
142-148): a new `Client` with a new channel for every accepted request. -/
def FreshRegistrations (es : List Input) : Prop :=
  (registrations es).Nodup

instance (es : List Input) : Decidable (FreshRegistrations es) :=
  inferInstanceAs (Decidable (registrations es).Nodup)

/-- No blocking send of the run can wait for ever: no pump is stalled. -/
def NoStalledPump (es : List Input) : Prop :=
  ∀ i ∈ es, ∀ c, i.pump c ≠ Pump.stalled

/-- The bookkeeping invariant of a run in which `regs` are the connections
registered so far: the keys of the map are distinct, registered and open; a
registered connection that is not a key has a closed channel; a connection that
was never registered has an open channel. -/
def Tracked (regs : List Conn) (manager : ClientManager) : Prop :=
  manager.clients.Nodup ∧
  (∀ c ∈ manager.clients, c ∈ regs ∧ (manager.chan c).closed = false) ∧
  (∀ c ∈ regs, c ∉ manager.clients → (manager.chan c).closed = true) ∧
  (∀ c, c ∉ regs → (manager.chan c).closed = false)

/-- Whether the input takes connection `c` out of the Live Connection Set when
`c` is in it: it is `Unregister(c)`, or it is a Broadcast during which the
queue of `c` cannot accept a non-blocking enqueue. -/
def removes (i : Input) (c : Conn) : Bool :=
  match i.ev with
  | Event.register _ => false
  | Event.unregister conn => decide (conn = c)
  | Event.broadcast _ => decide (i.pump c ≠ Pump.waiting)

/-- The replay property read backwards from the newest input: `c` is live when
the newest input that is `Register(c)` or removes `c` is a `Register(c)`. -/
def liveNewestFirst (c : Conn) : List Input → Bool
  | [] => false
  | i :: older =>
    if i.ev = Event.register c then true
    else if removes i c = true then false
    else liveNewestFirst c older

/-- The replay property of the specification: `c` was Registered and, since
its last Register, has been neither Unregistered nor evicted by a failed
enqueue. -/
def liveSpec (es : List Input) (c : Conn) : Bool :=
  liveNewestFirst c es.reverse

/-- Two managers that differ at most in the order in which the keys of the map
`clients` are listed: the same keys, and every client with the same channel. -/
def SameHub (m m' : ClientManager) : Prop :=
  m.clients.Perm m'.clients ∧ ∀ d, m.chan d = m'.chan d

/-! ## The envelope codec

The repository calls `json.Marshal` on a `Message` and never decodes; neither
function is part of the repository's sources.  The codec below is the one the
specification describes, with the keys and the `omitempty` option of the struct
tags of `Message` (main.go 28-30).  Text is a sequence of Unicode characters. -/

/-- Modelled from the spec: the double quote that delimits a string of the wire
text (the JSON encoder is not part of the sources). -/
def dquote : Char := Char.ofNat 34

/-- Modelled from the spec: the backslash that starts an escape in the wire
text (the JSON encoder is not part of the sources). -/
def backslash : Char := Char.ofNat 92

/-- Modelled from the spec: the opening brace of an encoded envelope (the JSON
encoder is not part of the sources). -/
def lbrace : Char := Char.ofNat 123

/-- Modelled from the spec: the closing brace of an encoded envelope (the JSON
encoder is not part of the sources). -/
def rbrace : Char := Char.ofNat 125

/-- Modelled from the spec: the lower-case hexadecimal digit of a number below
16, for the escapes of the wire text (the JSON encoder is not part of the
sources). -/
def hexDigit (n : Nat) : Char :=
  if n < 10 then Char.ofNat (48 + n) else Char.ofNat (87 + n)

/-- Modelled from the spec: the value of a hexadecimal digit, for the escapes
of the wire text (the JSON decoder is not part of the sources). -/
def unhex (c : Char) : Option Nat :=
  if 48 ≤ c.toNat ∧ c.toNat ≤ 57 then some (c.toNat - 48)
  else if 97 ≤ c.toNat ∧ c.toNat ≤ 102 then some (c.toNat - 87)
  else if 65 ≤ c.toNat ∧ c.toNat ≤ 70 then some (c.toNat - 55)
  else none

/-- Modelled from the spec: how one character of a field is written inside a
string of the wire text; quote, backslash and control characters are escaped
(the JSON encoder is not part of the sources). -/
def escapeChar (c : Char) : List Char :=
  if c = dquote then [backslash, dquote]
  else if c = backslash then [backslash, backslash]
  else if c.toNat < 32 then
    [backslash, 'u', '0', '0', hexDigit (c.toNat / 16), hexDigit (c.toNat % 16)]
  else [c]

/-- Modelled from the spec: the characters of a field as written inside a string
of the wire text (the JSON encoder is not part of the sources). -/
def escape : List Char → List Char
  | [] => []
  | c :: rest => escapeChar c ++ escape rest

/-- Modelled from the spec: a field written as a string of the wire text (the
JSON encoder is not part of the sources). -/
def quote (s : String) : List Char :=
  dquote :: (escape s.data ++ [dquote])

/-- Modelled from the spec: where the reader of a string of the wire text is:
in plain text, just after a backslash, or inside the four hexadecimal digits of
an escape (the JSON decoder is not part of the sources). -/
inductive Esc where
  | plain
  | slash
  | hex (value : Nat) (count : Nat)

/-- Modelled from the spec: reads a string of the wire text up to its closing
quote, one character at a time, and returns the characters it stands for and
the text after the quote (the JSON decoder is not part of the sources). -/
def unescapeFrom : Esc → List Char → Option (List Char × List Char)
  | _, [] => none
  | Esc.plain, c :: rest =>
    if c = dquote then some ([], rest)
    else if c = backslash then unescapeFrom Esc.slash rest
    else (unescapeFrom Esc.plain rest).map (fun r => (c :: r.1, r.2))
  | Esc.slash, e :: rest =>
    if e = dquote ∨ e = backslash ∨ e = '/' then
      (unescapeFrom Esc.plain rest).map (fun r => (e :: r.1, r.2))
    else if e = 'n' then
      (unescapeFrom Esc.plain rest).map (fun r => (Char.ofNat 10 :: r.1, r.2))
    else if e = 'r' then
      (unescapeFrom Esc.plain rest).map (fun r => (Char.ofNat 13 :: r.1, r.2))
    else if e = 't' then
      (unescapeFrom Esc.plain rest).map (fun r => (Char.ofNat 9 :: r.1, r.2))
    else if e = 'u' then unescapeFrom (Esc.hex 0 0) rest
    else none
  | Esc.hex value count, h :: rest =>
    match unhex h with
    | none => none
    | some x =>
      if count = 3 then
        (unescapeFrom Esc.plain rest).map (fun r => (Char.ofNat (value * 16 + x) :: r.1, r.2))
      else unescapeFrom (Esc.hex (value * 16 + x) (count + 1)) rest

/-- Modelled from the spec: reads a string of the wire text after its opening
quote (the JSON decoder is not part of the sources). -/
def unescape (text : List Char) : Option (List Char × List Char) :=
  unescapeFrom Esc.plain text

/-- Modelled from the spec: one key with its value in the wire text (the JSON
encoder is not part of the sources). -/
def renderMember (kv : String × String) : List Char :=
  quote kv.1 ++ ':' :: quote kv.2

/-- Modelled from the spec: the keys with their values, separated by commas (the
JSON encoder is not part of the sources). -/
def renderMembers : List (String × String) → List Char
  | [] => []
  | [kv] => renderMember kv
  | kv :: next :: rest => renderMember kv ++ ',' :: renderMembers (next :: rest)

/-- Modelled from the spec: the wire text of a list of keys with their values
(the JSON encoder is not part of the sources). -/
def render (kvs : List (String × String)) : List Char :=
  lbrace :: (renderMembers kvs ++ [rbrace])

/-- Modelled from the spec: reads the keys with their values up to the closing
brace; `fuel` bounds the number of keys (the JSON decoder is not part of the
sources). -/
def parseMembers : Nat → List Char → Option (List (String × String))
  | 0, _ => none
  | fuel + 1, text =>
    match text with
    | [] => none
    | q :: rest =>
      if q = dquote then
        match unescape rest with
        | some (key, colon :: q2 :: rest2) =>
          if colon = ':' ∧ q2 = dquote then
            match unescape rest2 with
            | some (value, sep :: rest3) =>
              if sep = ',' then
                (parseMembers fuel rest3).map
                  (fun kvs => (String.mk key, String.mk value) :: kvs)
              else if sep = rbrace ∧ rest3 = [] then
                some [(String.mk key, String.mk value)]
              else none
            | _ => none
          else none
        | _ => none
      else none

/-- Modelled from the spec: reads a wire text into the keys it holds, with their
values, in order (the JSON decoder is not part of the sources). -/
def parseObject (text : List Char) : Option (List (String × String)) :=
  match text with
  | [] => none
  | o :: rest =>
    if o = lbrace then
      if rest = [rbrace] then some [] else parseMembers text.length rest
    else none

/-- Modelled from the spec: the fields of an envelope that are present, under
the keys of the struct tags of `Message`; "fields absent at serialization time
are omitted rather than written as empty" (the JSON encoder is not part of the
sources). -/
def Message.fields (m : Message) : List (String × String) :=
  (if m.Sender = "" then [] else [("sender", m.Sender)]) ++
  (if m.Recipient = "" then [] else [("recipient", m.Recipient)]) ++
  (if m.Content = "" then [] else [("content", m.Content)])

/-- Modelled from the spec: stores the value of one key of the wire text in the
field it names; other keys are skipped (the JSON decoder is not part of the
sources). -/
def Message.setField (m : Message) (kv : String × String) : Message :=
  if kv.1 = "sender" then { m with Sender := kv.2 }
  else if kv.1 = "recipient" then { m with Recipient := kv.2 }
  else if kv.1 = "content" then { m with Content := kv.2 }
  else m

/-- Modelled from the spec: the envelope of a list of keys with their values;
"decoding treats missing fields as not present" (the JSON decoder is not part
of the sources). -/
def Message.ofFields (kvs : List (String × String)) : Message :=
  kvs.foldl Message.setField {}

/-- Modelled from the spec: serializes an envelope to the wire text, which is
what `json.Marshal` is called for in main.go 47, 55 and 100 (the JSON encoder
is not part of the sources). -/
def encode (m : Message) : String :=
  String.mk (render m.fields)

/-- Modelled from the spec: reads an envelope back from the wire text (the
repository has no decoder). -/
def decode (text : String) : Option Message :=
  (parseObject text.data).map Message.ofFields

/-! ## The outbound pump -/

/-- One call `Client.write` makes on its socket, with what `WriteMessage`
returned: `failed` is whether the returned error was not nil. -/
inductive SocketCall where
  | writeText (message : Bytes) (failed : Bool)
  | writeClose (failed : Bool)
  | close
deriving DecidableEq, Repr

/-- What a run of `Client.write` does: its calls on the socket in order, what it
sends to the hub, and whether the function has returned. -/
structure WriteRun where
  calls : List SocketCall
  toHub : List Event
  returned : Bool
deriving DecidableEq, Repr

/-- The loop of `Client.write` (main.go 110-122) from the `n`-th call of
`WriteMessage` on, for the messages still to be received from `c.send` and
whether the channel is closed behind them.  `fails n` is whether the `n`-th
call of `WriteMessage` returns an error; the code drops that result.  With the
channel closed and drained the loop writes the close frame and returns, and the
deferred `c.socket.Close()` runs; with the channel open and drained it is parked
in `<-c.send`. -/
def Client.writeLoop (fails : Nat → Bool) : Nat → List Bytes → Bool → WriteRun
  | n, [], closed =>
    if closed then
      { calls := [SocketCall.writeClose (fails n), SocketCall.close], toHub := [],
        returned := true }
    else { calls := [], toHub := [], returned := false }
  | n, message :: rest, closed =>
    let run := Client.writeLoop fails (n + 1) rest closed
    { run with calls := SocketCall.writeText message (fails n) :: run.calls }

/-- The method `Client.write` (main.go 105-123) on a channel through which the
hub has sent `chan.queue` and which the hub has closed when `chan.closed`. -/
def Client.write (fails : Nat → Bool) (chan : Chan) : WriteRun :=
  Client.writeLoop fails 0 chan.queue chan.closed

/-- The outbound pump as the specification words it: "if the write itself
fails, terminate"; "queue closed with no further messages: write a close frame
to the transport and terminate". -/
def writeSpecLoop (fails : Nat → Bool) : Nat → List Bytes → Bool → WriteRun
  | n, [], closed =>
    if closed then
      { calls := [SocketCall.writeClose (fails n), SocketCall.close], toHub := [],
        returned := true }
    else { calls := [], toHub := [], returned := false }
  | n, message :: rest, closed =>
    if fails n = true then
      { calls := [SocketCall.writeText message true, SocketCall.close], toHub := [],
        returned := true }
    else
      let run := writeSpecLoop fails (n + 1) rest closed
      { run with calls := SocketCall.writeText message false :: run.calls }

/-- The outbound pump of the specification on a channel. -/
def writeSpec (fails : Nat → Bool) (chan : Chan) : WriteRun :=
  writeSpecLoop fails 0 chan.queue chan.closed

/-- The message of a text write. -/
def SocketCall.text? : SocketCall → Option Bytes
  | SocketCall.writeText message _ => some message
  | _ => none

/-- Whether the call writes a close frame. -/
def SocketCall.isCloseFrame : SocketCall → Bool
  | SocketCall.writeClose _ => true
  | _ => false

/-! ## Sample runs -/

/-- Every outbound pump is parked in its receive. -/
def allWaiting : Conn → Pump := fun _ => Pump.waiting

/-- Every outbound pump is parked in its receive, except that of `c`, which is
`p`. -/
def allWaitingBut (c : Conn) (p : Pump) : Conn → Pump :=
  fun d => if d = c then p else Pump.waiting

/-- The connections A (0), B (1) and C (2) register in this order while every
pump is waiting. -/
def joinABC : List Input :=
  [⟨Event.register 0, allWaiting⟩, ⟨Event.register 1, allWaiting⟩,
   ⟨Event.register 2, allWaiting⟩]

/-- The manager after `joinABC`: A has received two join notices, B one, C
none. -/
def hubABC : ClientManager :=
  (((((ClientManager.empty.insert 0).insert 1).enqueue 0 (encode connectedNotice)).insert 2).enqueue
    0 (encode connectedNotice)).enqueue 1 (encode connectedNotice)

/-- The manager after B has left `hubABC`: the channel of B is closed, A and C
have received the leave notice. -/
def hubAC : ClientManager :=
  (((hubABC.close 1).delete 1).enqueue 0 (encode disconnectedNotice)).enqueue
    2 (encode disconnectedNotice)

/-- The manager after a broadcast of `message` to `hubABC` while the pump of C
is busy: A and B have received the message, C is evicted. -/
def hubAB (message : Bytes) : ClientManager :=
  (((hubABC.enqueue 0 message).enqueue 1 message).close 2).delete 2

/-- A, B and C join, then B leaves. -/
def joinThenLeave : List Input :=
  joinABC ++ [⟨Event.unregister 1, allWaiting⟩]

/-- A, B and C join, then a broadcast finds the pump of C busy. -/
def joinThenEvict : List Input :=
  joinABC ++ [⟨Event.broadcast "x", allWaitingBut 2 Pump.busy⟩]

/-- A, B and C join, a broadcast finds the pump of C busy, then B leaves and
its inbound pump signals the hub twice. -/
def joinEvictLeave : List Input :=
  joinThenEvict ++ [⟨Event.unregister 1, allWaiting⟩, ⟨Event.unregister 1, allWaiting⟩]

/-- A connection joins, leaves, is registered a second time and leaves again. -/
def joinLeaveTwice : List Input :=
  [⟨Event.register 0, allWaiting⟩, ⟨Event.unregister 0, allWaiting⟩,
   ⟨Event.register 0, allWaiting⟩, ⟨Event.unregister 0, allWaiting⟩]

/-- The envelope `Client.read` of B submits for the frame "hello" (main.go
100). -/
def helloFromB : Bytes := encode { Sender := "B", Content := "hello" }

/-- The manager after the broadcast of `message` to `hubABC` while every pump is
waiting. -/
def hubABCAfter (message : Bytes) : ClientManager :=
  ((hubABC.enqueue 0 message).enqueue 1 message).enqueue 2 message

/-- The manager after D (3) has joined `hubABC` while every pump is waiting. -/
def hubABCD : ClientManager :=
  (((hubABC.insert 3).enqueue 0 (encode connectedNotice)).enqueue
    1 (encode connectedNotice)).enqueue 2 (encode connectedNotice)

/-- The first call of `WriteMessage` fails, the later ones succeed. -/
def firstWriteFails : Nat → Bool := fun n => decide (n = 0)

/-- No call of `WriteMessage` fails. -/
def noWriteFails : Nat → Bool := fun _ => false

/-! ## Basic facts about the manager operations -/

theorem chan_enqueue (m : ClientManager) (c d : Conn) (b : Bytes) :
    (m.enqueue c b).chan d =
      if d = c then { closed := (m.chan c).closed, queue := (m.chan c).queue ++ [b] }
      else m.chan d := by
  unfold ClientManager.enqueue ClientManager.chan
  by_cases h : d = c <;> simp [h]

theorem chan_close (m : ClientManager) (c d : Conn) :
    (m.close c).chan d =
      if d = c then { closed := true, queue := (m.chan c).queue } else m.chan d := by
  unfold ClientManager.close ClientManager.chan
  by_cases h : d = c <;> simp [h]

theorem chan_delete (m : ClientManager) (c d : Conn) : (m.delete c).chan d = m.chan d := rfl

theorem chan_insert (m : ClientManager) (c d : Conn) : (m.insert c).chan d = m.chan d := rfl

theorem clients_enqueue (m : ClientManager) (c : Conn) (b : Bytes) :
    (m.enqueue c b).clients = m.clients := rfl

theorem clients_close (m : ClientManager) (c : Conn) : (m.close c).clients = m.clients := rfl

theorem mem_clients_delete (m : ClientManager) (c d : Conn) :
    d ∈ (m.delete c).clients ↔ d ∈ m.clients ∧ d ≠ c := by
  simp [ClientManager.delete, List.mem_filter]

theorem mem_clients_insert (m : ClientManager) (c d : Conn) :
    d ∈ (m.insert c).clients ↔ d = c ∨ d ∈ m.clients := by
  unfold ClientManager.insert
  by_cases h : c ∈ m.clients
  · simp only [h, if_true]
    constructor
    · intro hd; exact Or.inr hd
    · rintro (rfl | hd)
      · exact h
      · exact hd
  · simp only [h, if_false, List.mem_append, List.mem_singleton]
    tauto

theorem nodup_clients_delete (m : ClientManager) (c : Conn) (h : m.clients.Nodup) :
    (m.delete c).clients.Nodup :=
  h.filter _

theorem nodup_clients_insert (m : ClientManager) (c : Conn) (h : m.clients.Nodup) :
    (m.insert c).clients.Nodup := by
  unfold ClientManager.insert
  by_cases hc : c ∈ m.clients
  · simpa [hc] using h
  · simp only [hc, if_false]
    exact List.Nodup.append h (List.nodup_singleton c) (by simpa using hc)

/-! ## The loop of `send` -/

theorem sendLoop_clients_closed (pump : Conn → Pump) (b : Bytes) (ignore : Conn) :
    ∀ (l : List Conn) (m m' : ClientManager),
      ClientManager.sendLoop pump b ignore l m = Outcome.ok m' →
      m'.clients = m.clients ∧ ∀ d, (m'.chan d).closed = (m.chan d).closed := by
  intro l
  induction l with
  | nil =>
    intro m m' h
    simp only [ClientManager.sendLoop, Outcome.ok.injEq] at h
    subst h
    exact ⟨rfl, fun _ => rfl⟩
  | cons c rest ih =>
    intro m m' h
    unfold ClientManager.sendLoop at h
    by_cases hc : c ≠ ignore
    · rw [if_pos hc] at h
      by_cases hcl : (m.chan c).closed = true
      · rw [if_pos hcl] at h; cases h
      · rw [if_neg hcl] at h
        by_cases hs : pump c = Pump.stalled
        · rw [if_pos hs] at h; cases h
        · rw [if_neg hs] at h
          obtain ⟨h1, h2⟩ := ih _ _ h
          refine ⟨h1, fun d => ?_⟩
          rw [h2 d, chan_enqueue]
          by_cases hd : d = c
          · subst hd; simp
          · simp [hd]
    · rw [if_neg hc] at h
      exact ih _ _ h

theorem sendLoop_queue (pump : Conn → Pump) (b : Bytes) (ignore : Conn) :
    ∀ (l : List Conn) (m m' : ClientManager), l.Nodup →
      ClientManager.sendLoop pump b ignore l m = Outcome.ok m' →
      ∀ d, (m'.chan d).queue =
        if d ∈ l ∧ d ≠ ignore then (m.chan d).queue ++ [b] else (m.chan d).queue := by
  intro l
  induction l with
  | nil =>
    intro m m' _ h
    simp only [ClientManager.sendLoop, Outcome.ok.injEq] at h
    subst h
    intro d; simp
  | cons c rest ih =>
    intro m m' hnd h d
    obtain ⟨hcr, hrest⟩ := List.nodup_cons.mp hnd
    unfold ClientManager.sendLoop at h
    by_cases hc : c ≠ ignore
    · rw [if_pos hc] at h
      by_cases hcl : (m.chan c).closed = true
      · rw [if_pos hcl] at h; cases h
      · rw [if_neg hcl] at h
        by_cases hs : pump c = Pump.stalled
        · rw [if_pos hs] at h; cases h
        · rw [if_neg hs] at h
          rw [ih _ _ hrest h d, chan_enqueue]
          by_cases hd : d = c
          · subst hd; simp [hcr, hc]
          · simp [hd]
    · rw [if_neg hc] at h
      rw [ih _ _ hrest h d]
      have hci : c = ignore := not_not.mp hc
      by_cases hd : d = c
      · subst hd; simp [hcr, hci]
      · simp [hd]

theorem sendLoop_ne_panic (pump : Conn → Pump) (b : Bytes) (ignore : Conn) :
    ∀ (l : List Conn) (m : ClientManager),
      (∀ d ∈ l, d ≠ ignore → (m.chan d).closed = false) →
      ClientManager.sendLoop pump b ignore l m ≠ Outcome.panic := by
  intro l
  induction l with
  | nil => intro m _ h; simp [ClientManager.sendLoop] at h
  | cons c rest ih =>
    intro m hop
    unfold ClientManager.sendLoop
    by_cases hc : c ≠ ignore
    · rw [if_pos hc]
      have hcl : ¬ (m.chan c).closed = true := by
        rw [hop c (List.mem_cons_self _ _) hc]; simp
      rw [if_neg hcl]
      by_cases hs : pump c = Pump.stalled
      · rw [if_pos hs]; simp
      · rw [if_neg hs]
        apply ih
        intro d hd hdi
        rw [chan_enqueue]
        by_cases hdc : d = c
        · subst hdc; simpa using hop d (List.mem_cons_self _ _) hdi
        · simpa [hdc] using hop d (List.mem_cons_of_mem _ hd) hdi
    · rw [if_neg hc]
      exact ih m (fun d hd hdi => hop d (List.mem_cons_of_mem _ hd) hdi)

theorem sendLoop_isOk (pump : Conn → Pump) (b : Bytes) (ignore : Conn) :
    ∀ (l : List Conn) (m : ClientManager),
      (∀ d ∈ l, d ≠ ignore → (m.chan d).closed = false ∧ pump d ≠ Pump.stalled) →
      ∃ m', ClientManager.sendLoop pump b ignore l m = Outcome.ok m' := by
  intro l
  induction l with
  | nil => intro m _; exact ⟨m, rfl⟩
  | cons c rest ih =>
    intro m hop
    unfold ClientManager.sendLoop
    by_cases hc : c ≠ ignore
    · rw [if_pos hc]
      obtain ⟨ho, hs⟩ := hop c (List.mem_cons_self _ _) hc
      have hcl : ¬ (m.chan c).closed = true := by rw [ho]; simp
      rw [if_neg hcl, if_neg hs]
      apply ih
      intro d hd hdi
      obtain ⟨ho', hs'⟩ := hop d (List.mem_cons_of_mem _ hd) hdi
      refine ⟨?_, hs'⟩
      rw [chan_enqueue]
      by_cases hdc : d = c
      · subst hdc; simpa using ho'
      · simpa [hdc] using ho'
    · rw [if_neg hc]
      exact ih m (fun d hd hdi => hop d (List.mem_cons_of_mem _ hd) hdi)

/-! ## The loop of the broadcast case -/

theorem broadcastLoop_mem (pump : Conn → Pump) (b : Bytes) :
    ∀ (l : List Conn) (m m' : ClientManager),
      ClientManager.broadcastLoop pump b l m = Outcome.ok m' →
      ∀ c, c ∈ m'.clients ↔ c ∈ m.clients ∧ (c ∈ l → pump c = Pump.waiting) := by
  intro l
  induction l with
  | nil =>
    intro m m' h c
    simp only [ClientManager.broadcastLoop, Outcome.ok.injEq] at h
    subst h
    simp
  | cons a rest ih =>
    intro m m' h c
    unfold ClientManager.broadcastLoop at h
    by_cases hcl : (m.chan a).closed = true
    · rw [if_pos hcl] at h; cases h
    · rw [if_neg hcl] at h
      by_cases hw : pump a = Pump.waiting
      · rw [if_pos hw] at h
        rw [ih _ _ h c, clients_enqueue]
        constructor
        · rintro ⟨h1, h2⟩
          refine ⟨h1, fun hc => ?_⟩
          rcases List.mem_cons.mp hc with rfl | hc
          · exact hw
          · exact h2 hc
        · rintro ⟨h1, h2⟩
          exact ⟨h1, fun hc => h2 (List.mem_cons_of_mem _ hc)⟩
      · rw [if_neg hw] at h
        rw [ih _ _ h c, mem_clients_delete, clients_close]
        constructor
        · rintro ⟨⟨h1, hne⟩, h2⟩
          refine ⟨h1, fun hc => ?_⟩
          rcases List.mem_cons.mp hc with rfl | hc
          · exact absurd rfl hne
          · exact h2 hc
        · rintro ⟨h1, h2⟩
          refine ⟨⟨h1, ?_⟩, fun hc => h2 (List.mem_cons_of_mem _ hc)⟩
          rintro rfl
          exact hw (h2 (List.mem_cons_self _ _))

theorem broadcastLoop_sublist (pump : Conn → Pump) (b : Bytes) :
    ∀ (l : List Conn) (m m' : ClientManager),
      ClientManager.broadcastLoop pump b l m = Outcome.ok m' →
      m'.clients.Sublist m.clients := by
  intro l
  induction l with
  | nil =>
    intro m m' h
    simp only [ClientManager.broadcastLoop, Outcome.ok.injEq] at h
    subst h
    exact List.Sublist.refl _
  | cons a rest ih =>
    intro m m' h
    unfold ClientManager.broadcastLoop at h
    by_cases hcl : (m.chan a).closed = true
    · rw [if_pos hcl] at h; cases h
    · rw [if_neg hcl] at h
      by_cases hw : pump a = Pump.waiting
      · rw [if_pos hw] at h
        have h1 := ih (m.enqueue a b) m' h
        rwa [clients_enqueue] at h1
      · rw [if_neg hw] at h
        have h1 := ih ((m.close a).delete a) m' h
        exact h1.trans (List.filter_sublist _)

theorem broadcastLoop_chan (pump : Conn → Pump) (b : Bytes) :
    ∀ (l : List Conn) (m m' : ClientManager), l.Nodup →
      ClientManager.broadcastLoop pump b l m = Outcome.ok m' →
      ∀ d, m'.chan d =
        if d ∈ l then
          (if pump d = Pump.waiting then
            { closed := (m.chan d).closed, queue := (m.chan d).queue ++ [b] }
          else { closed := true, queue := (m.chan d).queue })
        else m.chan d := by
  intro l
  induction l with
  | nil =>
    intro m m' _ h d
    simp only [ClientManager.broadcastLoop, Outcome.ok.injEq] at h
    subst h
    simp
  | cons a rest ih =>
    intro m m' hnd h d
    obtain ⟨har, hrest⟩ := List.nodup_cons.mp hnd
    unfold ClientManager.broadcastLoop at h
    by_cases hcl : (m.chan a).closed = true
    · rw [if_pos hcl] at h; cases h
    · rw [if_neg hcl] at h
      by_cases hw : pump a = Pump.waiting
      · rw [if_pos hw] at h
        rw [ih _ _ hrest h d, chan_enqueue]
        by_cases hd : d = a
        · subst hd; simp [har, hw]
        · simp [hd]
      · rw [if_neg hw] at h
        rw [ih _ _ hrest h d, chan_delete, chan_close]
        by_cases hd : d = a
        · subst hd; simp [har, hw]
        · simp [hd]

theorem broadcastLoop_isOk (pump : Conn → Pump) (b : Bytes) :
    ∀ (l : List Conn) (m : ClientManager), l.Nodup →
      (∀ d ∈ l, (m.chan d).closed = false) →
      ∃ m', ClientManager.broadcastLoop pump b l m = Outcome.ok m' := by
  intro l
  induction l with
  | nil => intro m _ _; exact ⟨m, rfl⟩
  | cons a rest ih =>
    intro m hnd hop
    obtain ⟨har, hrest⟩ := List.nodup_cons.mp hnd
    unfold ClientManager.broadcastLoop
    have hcl : ¬ (m.chan a).closed = true := by
      rw [hop a (List.mem_cons_self _ _)]; simp
    rw [if_neg hcl]
    by_cases hw : pump a = Pump.waiting
    · rw [if_pos hw]
      apply ih _ hrest
      intro d hd
      have hda : d ≠ a := fun e => har (e ▸ hd)
      rw [chan_enqueue, if_neg hda]
      exact hop d (List.mem_cons_of_mem _ hd)
    · rw [if_neg hw]
      apply ih _ hrest
      intro d hd
      have hda : d ≠ a := fun e => har (e ▸ hd)
      rw [chan_delete, chan_close, if_neg hda]
      exact hop d (List.mem_cons_of_mem _ hd)

/-! ## One event, and runs of events -/

theorem start_cons (marshal : Message → Bytes) (m : ClientManager) (i : Input)
    (rest : List Input) :
    ClientManager.start marshal m (i :: rest) =
      match ClientManager.startStep marshal m i with
      | Outcome.ok next => ClientManager.start marshal next rest
      | Outcome.blocked => Outcome.blocked
      | Outcome.panic => Outcome.panic := rfl

theorem start_append (marshal : Message → Bytes) :
    ∀ (es fs : List Input) (m : ClientManager),
      ClientManager.start marshal m (es ++ fs) =
        match ClientManager.start marshal m es with
        | Outcome.ok m' => ClientManager.start marshal m' fs
        | Outcome.blocked => Outcome.blocked
        | Outcome.panic => Outcome.panic := by
  intro es
  induction es with
  | nil => intro fs m; rfl
  | cons i rest ih =>
    intro fs m
    rw [List.cons_append, start_cons, start_cons]
    cases h : ClientManager.startStep marshal m i with
    | ok m1 => exact ih fs m1
    | blocked => rfl
    | panic => rfl

theorem registrations_append (es fs : List Input) :
    registrations (es ++ fs) = registrations es ++ registrations fs := by
  induction es with
  | nil => rfl
  | cons i rest ih =>
    simp only [List.cons_append, registrations]
    cases i.ev <;> simp [ih]

theorem wellFormed_of_tracked {regs : List Conn} {m : ClientManager} (h : Tracked regs m) :
    m.WellFormed :=
  ⟨h.1, fun c hc => (h.2.1 c hc).2⟩

theorem tracked_empty : Tracked [] ClientManager.empty := by
  refine ⟨List.nodup_nil, ?_, ?_, ?_⟩
  · intro c hc; simp [ClientManager.empty] at hc
  · intro c hc; simp at hc
  · intro c _; rfl

theorem broadcast_step (marshal : Message → Bytes) (m : ClientManager) (b : Bytes)
    (pump : Conn → Pump) (hwf : m.WellFormed) :
    ∃ m', ClientManager.startStep marshal m ⟨Event.broadcast b, pump⟩ = Outcome.ok m' ∧
      m'.clients.Nodup ∧
      (∀ c, c ∈ m'.clients ↔ c ∈ m.clients ∧ pump c = Pump.waiting) ∧
      (∀ d, m'.chan d =
        if d ∈ m.clients then
          (if pump d = Pump.waiting then
            { closed := (m.chan d).closed, queue := (m.chan d).queue ++ [b] }
          else { closed := true, queue := (m.chan d).queue })
        else m.chan d) := by
  obtain ⟨m', hm'⟩ := broadcastLoop_isOk pump b m.clients m hwf.1 hwf.2
  refine ⟨m', hm', ?_, ?_, broadcastLoop_chan pump b _ _ _ hwf.1 hm'⟩
  · exact (broadcastLoop_sublist pump b _ _ _ hm').nodup hwf.1
  · intro c
    rw [broadcastLoop_mem pump b _ _ _ hm' c]
    constructor
    · rintro ⟨h1, h2⟩; exact ⟨h1, h2 h1⟩
    · rintro ⟨h1, h2⟩; exact ⟨h1, fun _ => h2⟩

theorem broadcast_wellFormed (marshal : Message → Bytes) (m m' : ClientManager) (b : Bytes)
    (pump : Conn → Pump) (hwf : m.WellFormed)
    (h : ClientManager.startStep marshal m ⟨Event.broadcast b, pump⟩ = Outcome.ok m') :
    m'.WellFormed := by
  obtain ⟨m1, h1, hnd, hmem, hchan⟩ := broadcast_step marshal m b pump hwf
  rw [h] at h1
  cases h1
  refine ⟨hnd, fun c hc => ?_⟩
  obtain ⟨hcm, hw⟩ := (hmem c).mp hc
  rw [hchan c, if_pos hcm, if_pos hw]
  exact hwf.2 c hcm

theorem chan_eq_of (a b : Chan) (h1 : a.closed = b.closed) (h2 : a.queue = b.queue) :
    a = b := by
  cases a; cases b; simp_all

theorem register_step (marshal : Message → Bytes) (m : ClientManager) (c : Conn)
    (pump : Conn → Pump) (hwf : m.WellFormed)
    (hp : ∀ d ∈ m.clients, d ≠ c → pump d ≠ Pump.stalled) :
    ∃ m', ClientManager.startStep marshal m ⟨Event.register c, pump⟩ = Outcome.ok m' ∧
      m'.clients = (m.insert c).clients ∧
      (∀ d, m'.chan d =
        if d ∈ m.clients ∧ d ≠ c then
          { closed := false, queue := (m.chan d).queue ++ [marshal connectedNotice] }
        else m.chan d) := by
  have hopen : ∀ d ∈ (m.insert c).clients, d ≠ c →
      ((m.insert c).chan d).closed = false ∧ pump d ≠ Pump.stalled := by
    intro d hd hdc
    rcases (mem_clients_insert m c d).mp hd with h | h
    · exact absurd h hdc
    · exact ⟨hwf.2 d h, hp d h hdc⟩
  obtain ⟨m', hm'⟩ := sendLoop_isOk pump (marshal connectedNotice) c _ (m.insert c) hopen
  refine ⟨m', hm', (sendLoop_clients_closed _ _ _ _ _ _ hm').1, fun d => ?_⟩
  have hcl := (sendLoop_clients_closed _ _ _ _ _ _ hm').2 d
  have hq := sendLoop_queue _ _ _ _ _ _ (nodup_clients_insert m c hwf.1) hm' d
  rw [chan_insert] at hcl hq
  by_cases hd : d ∈ m.clients ∧ d ≠ c
  · rw [if_pos hd]
    have hd' : d ∈ (m.insert c).clients ∧ d ≠ c :=
      ⟨(mem_clients_insert m c d).mpr (Or.inr hd.1), hd.2⟩
    rw [if_pos hd'] at hq
    apply chan_eq_of
    · rw [hcl]; exact hwf.2 d hd.1
    · exact hq
  · rw [if_neg hd]
    have hd' : ¬ (d ∈ (m.insert c).clients ∧ d ≠ c) := by
      rintro ⟨h1, h2⟩
      rcases (mem_clients_insert m c d).mp h1 with h | h
      · exact h2 h
      · exact hd ⟨h, h2⟩
    rw [if_neg hd'] at hq
    exact chan_eq_of _ _ hcl hq

theorem unregister_absent (marshal : Message → Bytes) (m : ClientManager) (c : Conn)
    (pump : Conn → Pump) (hc : c ∉ m.clients) :
    ClientManager.startStep marshal m ⟨Event.unregister c, pump⟩ = Outcome.ok m := by
  simp only [ClientManager.startStep]
  rw [if_neg hc]

theorem unregister_present (marshal : Message → Bytes) (m : ClientManager) (c : Conn)
    (pump : Conn → Pump) (hc : c ∈ m.clients) (ho : (m.chan c).closed = false) :
    ClientManager.startStep marshal m ⟨Event.unregister c, pump⟩ =
      ((m.close c).delete c).send pump (marshal disconnectedNotice) c := by
  simp only [ClientManager.startStep]
  rw [if_pos hc, if_neg (by rw [ho]; simp)]

theorem unregister_step (marshal : Message → Bytes) (m : ClientManager) (c : Conn)
    (pump : Conn → Pump) (hwf : m.WellFormed) (hc : c ∈ m.clients)
    (hp : ∀ d ∈ m.clients, d ≠ c → pump d ≠ Pump.stalled) :
    ∃ m', ClientManager.startStep marshal m ⟨Event.unregister c, pump⟩ = Outcome.ok m' ∧
      m'.clients = (m.delete c).clients ∧
      (∀ d, m'.chan d =
        if d = c then { closed := true, queue := (m.chan c).queue }
        else if d ∈ m.clients then
          { closed := false, queue := (m.chan d).queue ++ [marshal disconnectedNotice] }
        else m.chan d) := by
  rw [unregister_present marshal m c pump hc (hwf.2 c hc)]
  have hopen : ∀ d ∈ ((m.close c).delete c).clients, d ≠ c →
      (((m.close c).delete c).chan d).closed = false ∧ pump d ≠ Pump.stalled := by
    intro d hd hdc
    have hdm : d ∈ m.clients := ((mem_clients_delete (m.close c) c d).mp hd).1
    refine ⟨?_, hp d hdm hdc⟩
    rw [chan_delete, chan_close, if_neg hdc]
    exact hwf.2 d hdm
  obtain ⟨m', hm'⟩ := sendLoop_isOk pump (marshal disconnectedNotice) c _
    ((m.close c).delete c) hopen
  refine ⟨m', hm', (sendLoop_clients_closed _ _ _ _ _ _ hm').1, fun d => ?_⟩
  have hcl := (sendLoop_clients_closed _ _ _ _ _ _ hm').2 d
  have hq := sendLoop_queue _ _ _ _ _ _
    (nodup_clients_delete (m.close c) c hwf.1) hm' d
  rw [chan_delete, chan_close] at hcl hq
  by_cases hdc : d = c
  · subst hdc
    rw [if_pos rfl] at hcl hq ⊢
    rw [if_neg (by simp)] at hq
    exact chan_eq_of _ _ hcl hq
  · rw [if_neg hdc] at hcl hq ⊢
    by_cases hdm : d ∈ m.clients
    · rw [if_pos hdm]
      have hd' : d ∈ ((m.close c).delete c).clients ∧ d ≠ c :=
        ⟨(mem_clients_delete (m.close c) c d).mpr ⟨hdm, hdc⟩, hdc⟩
      rw [if_pos hd'] at hq
      apply chan_eq_of
      · rw [hcl]; exact hwf.2 d hdm
      · exact hq
    · rw [if_neg hdm]
      have hd' : ¬ (d ∈ ((m.close c).delete c).clients ∧ d ≠ c) := by
        rintro ⟨h1, _⟩
        exact hdm ((mem_clients_delete (m.close c) c d).mp h1).1
      rw [if_neg hd'] at hq
      exact chan_eq_of _ _ hcl hq

/-! ## The bookkeeping invariant along a run -/

theorem tracked_register (marshal : Message → Bytes) (regs : List Conn) (m : ClientManager)
    (c : Conn) (pump : Conn → Pump) (ht : Tracked regs m) (hfresh : c ∉ regs) :
    ClientManager.startStep marshal m ⟨Event.register c, pump⟩ ≠ Outcome.panic ∧
    ∀ m', ClientManager.startStep marshal m ⟨Event.register c, pump⟩ = Outcome.ok m' →
      Tracked (regs ++ [c]) m' := by
  obtain ⟨hnd, hmem, hgone, hnew⟩ := ht
  have hstep : ClientManager.startStep marshal m ⟨Event.register c, pump⟩ =
      ClientManager.sendLoop pump (marshal connectedNotice) c (m.insert c).clients
        (m.insert c) := rfl
  rw [hstep]
  constructor
  · apply sendLoop_ne_panic
    intro d hd hdc
    rcases (mem_clients_insert m c d).mp hd with h | h
    · exact absurd h hdc
    · exact (hmem d h).2
  · intro m' hm'
    obtain ⟨hcl, hclosed⟩ := sendLoop_clients_closed _ _ _ _ _ _ hm'
    have hmem' : ∀ d, d ∈ m'.clients ↔ d = c ∨ d ∈ m.clients := by
      intro d; rw [hcl]; exact mem_clients_insert m c d
    refine ⟨?_, ?_, ?_, ?_⟩
    · rw [hcl]; exact nodup_clients_insert m c hnd
    · intro d hd
      rw [hclosed d, chan_insert]
      rcases (hmem' d).mp hd with h | h
      · subst h
        exact ⟨by simp, hnew d hfresh⟩
      · exact ⟨List.mem_append_left _ (hmem d h).1, (hmem d h).2⟩
    · intro d hd hdn
      rw [hclosed d, chan_insert]
      have hdc : d ≠ c := fun e => hdn ((hmem' d).mpr (Or.inl e))
      have hdm : d ∉ m.clients := fun e => hdn ((hmem' d).mpr (Or.inr e))
      rcases List.mem_append.mp hd with h | h
      · exact hgone d h hdm
      · exact absurd (List.mem_singleton.mp h) hdc
    · intro d hd
      rw [hclosed d, chan_insert]
      exact hnew d (fun e => hd (List.mem_append_left _ e))

theorem tracked_unregister (marshal : Message → Bytes) (regs : List Conn) (m : ClientManager)
    (c : Conn) (pump : Conn → Pump) (ht : Tracked regs m) :
    ClientManager.startStep marshal m ⟨Event.unregister c, pump⟩ ≠ Outcome.panic ∧
    ∀ m', ClientManager.startStep marshal m ⟨Event.unregister c, pump⟩ = Outcome.ok m' →
      Tracked regs m' := by
  by_cases hc : c ∈ m.clients
  · obtain ⟨hnd, hmem, hgone, hnew⟩ := ht
    rw [unregister_present marshal m c pump hc (hmem c hc).2]
    have hstep : ((m.close c).delete c).send pump (marshal disconnectedNotice) c =
        ClientManager.sendLoop pump (marshal disconnectedNotice) c
          ((m.close c).delete c).clients ((m.close c).delete c) := rfl
    rw [hstep]
    constructor
    · apply sendLoop_ne_panic
      intro d hd hdc
      rw [chan_delete, chan_close, if_neg hdc]
      exact (hmem d ((mem_clients_delete (m.close c) c d).mp hd).1).2
    · intro m' hm'
      obtain ⟨hcl, hclosed⟩ := sendLoop_clients_closed _ _ _ _ _ _ hm'
      have hmem' : ∀ d, d ∈ m'.clients ↔ d ∈ m.clients ∧ d ≠ c := by
        intro d; rw [hcl]; exact mem_clients_delete (m.close c) c d
      refine ⟨?_, ?_, ?_, ?_⟩
      · rw [hcl]; exact nodup_clients_delete (m.close c) c hnd
      · intro d hd
        obtain ⟨hdm, hdc⟩ := (hmem' d).mp hd
        rw [hclosed d, chan_delete, chan_close, if_neg hdc]
        exact hmem d hdm
      · intro d hd hdn
        rw [hclosed d, chan_delete, chan_close]
        by_cases hdc : d = c
        · rw [if_pos hdc]
        · rw [if_neg hdc]
          exact hgone d hd (fun e => hdn ((hmem' d).mpr ⟨e, hdc⟩))
      · intro d hd
        have hdc : d ≠ c := fun e => hd (e ▸ (hmem c hc).1)
        rw [hclosed d, chan_delete, chan_close, if_neg hdc]
        exact hnew d hd
  · rw [unregister_absent marshal m c pump hc]
    refine ⟨by simp, fun m' hm' => ?_⟩
    cases hm'
    exact ht

theorem tracked_broadcast (marshal : Message → Bytes) (regs : List Conn) (m : ClientManager)
    (b : Bytes) (pump : Conn → Pump) (ht : Tracked regs m) :
    ClientManager.startStep marshal m ⟨Event.broadcast b, pump⟩ ≠ Outcome.panic ∧
    ∀ m', ClientManager.startStep marshal m ⟨Event.broadcast b, pump⟩ = Outcome.ok m' →
      Tracked regs m' := by
  obtain ⟨m1, h1, hnd1, hmem1, hchan1⟩ :=
    broadcast_step marshal m b pump (wellFormed_of_tracked ht)
  obtain ⟨_, hmem, hgone, hnew⟩ := ht
  rw [h1]
  refine ⟨by simp, fun m' hm' => ?_⟩
  cases hm'
  refine ⟨hnd1, ?_, ?_, ?_⟩
  · intro d hd
    obtain ⟨hdm, hw⟩ := (hmem1 d).mp hd
    rw [hchan1 d, if_pos hdm, if_pos hw]
    exact hmem d hdm
  · intro d hd hdn
    rw [hchan1 d]
    by_cases hdm : d ∈ m.clients
    · have hw : ¬ pump d = Pump.waiting := fun e => hdn ((hmem1 d).mpr ⟨hdm, e⟩)
      rw [if_pos hdm, if_neg hw]
    · rw [if_neg hdm]
      exact hgone d hd hdm
  · intro d hd
    have hdm : d ∉ m.clients := fun e => hd (hmem d e).1
    rw [hchan1 d, if_neg hdm]
    exact hnew d hd

theorem tracked_step (marshal : Message → Bytes) (regs : List Conn) (m : ClientManager)
    (i : Input) (ht : Tracked regs m) (hfresh : (regs ++ registrations [i]).Nodup) :
    ClientManager.startStep marshal m i ≠ Outcome.panic ∧
    ∀ m', ClientManager.startStep marshal m i = Outcome.ok m' →
      Tracked (regs ++ registrations [i]) m' := by
  obtain ⟨ev, pump⟩ := i
  cases ev with
  | register c =>
    have hr : registrations [(⟨Event.register c, pump⟩ : Input)] = [c] := rfl
    rw [hr] at hfresh ⊢
    have hc : c ∉ regs := by
      intro hc
      exact (List.nodup_append.mp hfresh).2.2 hc (List.mem_singleton_self c)
    exact tracked_register marshal regs m c pump ht hc
  | unregister c =>
    have hr : registrations [(⟨Event.unregister c, pump⟩ : Input)] = [] := rfl
    rw [hr, List.append_nil]
    exact tracked_unregister marshal regs m c pump ht
  | broadcast b =>
    have hr : registrations [(⟨Event.broadcast b, pump⟩ : Input)] = [] := rfl
    rw [hr, List.append_nil]
    exact tracked_broadcast marshal regs m b pump ht

theorem start_tracked (marshal : Message → Bytes) :
    ∀ (es : List Input) (regs : List Conn) (m : ClientManager), Tracked regs m →
      (regs ++ registrations es).Nodup →
      ClientManager.start marshal m es ≠ Outcome.panic ∧
      ∀ m', ClientManager.start marshal m es = Outcome.ok m' →
        Tracked (regs ++ registrations es) m' := by
  intro es
  induction es with
  | nil =>
    intro regs m ht _
    refine ⟨by simp [ClientManager.start], fun m' hm' => ?_⟩
    simp only [ClientManager.start, Outcome.ok.injEq] at hm'
    subst hm'
    simpa [registrations] using ht
  | cons i rest ih =>
    intro regs m ht hfresh
    have hsplit : registrations (i :: rest) = registrations [i] ++ registrations rest :=
      registrations_append [i] rest
    rw [hsplit, ← List.append_assoc] at hfresh ⊢
    have hfresh1 : (regs ++ registrations [i]).Nodup := (List.nodup_append.mp hfresh).1
    obtain ⟨hnp, hok⟩ := tracked_step marshal regs m i ht hfresh1
    rw [start_cons]
    cases hs : ClientManager.startStep marshal m i with
    | ok m1 => exact ih _ m1 (hok m1 hs) hfresh
    | blocked => exact ⟨by simp, fun m' hm' => by cases hm'⟩
    | panic => exact absurd hs hnp

/-! ## The envelope codec: encoding then decoding -/

theorem unescapeFrom_control (n : Nat) (h : n < 32) (rest : List Char) :
    unescapeFrom (Esc.hex 0 0) ('0' :: '0' :: hexDigit (n / 16) :: hexDigit (n % 16) :: rest) =
      (unescapeFrom Esc.plain rest).map (fun r => (Char.ofNat n :: r.1, r.2)) := by
  interval_cases n <;> rfl

theorem unescape_escape (s : List Char) (rest : List Char) :
    unescape (escape s ++ dquote :: rest) = some (s, rest) := by
  unfold unescape
  induction s with
  | nil => simp [escape, unescapeFrom]
  | cons c s ih =>
    by_cases h1 : c = dquote
    · subst h1
      have e1 : ¬ backslash = dquote := by decide
      simp [escape, escapeChar, unescapeFrom, ih, e1]
    · by_cases h2 : c = backslash
      · subst h2
        simp [escape, escapeChar, unescapeFrom, ih, h1]
      · by_cases h3 : c.toNat < 32
        · have hu := unescapeFrom_control c.toNat h3 (escape s ++ dquote :: rest)
          rw [Char.ofNat_toNat, ih] at hu
          have e1 : ¬ backslash = dquote := by decide
          have e2 : ¬ ('u' = dquote ∨ 'u' = backslash ∨ 'u' = '/') := by decide
          have e3 : ¬ 'u' = 'n' := by decide
          have e4 : ¬ 'u' = 'r' := by decide
          have e5 : ¬ 'u' = 't' := by decide
          simp only [escape, escapeChar, if_neg h1, if_neg h2, if_pos h3, List.cons_append,
            List.nil_append, unescapeFrom, if_neg e1, if_true, if_neg e2, if_neg e3, if_neg e4,
            if_neg e5]
          exact hu
        · simp [escape, escapeChar, unescapeFrom, ih, h1, h2, h3]


theorem renderMember_append (kv : String × String) (tail : List Char) :
    renderMember kv ++ tail =
      dquote :: (escape kv.1.data ++ dquote :: ':' :: dquote ::
        (escape kv.2.data ++ dquote :: tail)) := by
  simp [renderMember, quote, List.append_assoc]

theorem parseMembers_member (fuel : Nat) (kv : String × String) (sep : Char)
    (rest : List Char) :
    parseMembers (fuel + 1) (renderMember kv ++ sep :: rest) =
      if sep = ',' then (parseMembers fuel rest).map (fun kvs => kv :: kvs)
      else if sep = rbrace ∧ rest = [] then some [kv]
      else none := by
  rw [renderMember_append, parseMembers]
  simp only [if_true, unescape_escape, and_self]

theorem length_le_renderMembers : ∀ kvs : List (String × String),
    kvs.length ≤ (renderMembers kvs).length
  | [] => by simp [renderMembers]
  | [kv] => by simp [renderMembers, renderMember, quote]
  | kv :: next :: rest => by
    have ih := length_le_renderMembers (next :: rest)
    simp only [renderMembers, List.length_append, List.length_cons] at ih ⊢
    omega

theorem parseMembers_render : ∀ (kvs : List (String × String)) (fuel : Nat),
    kvs ≠ [] → kvs.length ≤ fuel →
    parseMembers fuel (renderMembers kvs ++ [rbrace]) = some kvs
  | [], _, h, _ => absurd rfl h
  | [kv], fuel, _, hf => by
    obtain ⟨n, rfl⟩ : ∃ n, fuel = n + 1 := ⟨fuel - 1, by simp at hf; omega⟩
    have e1 : ¬ rbrace = ',' := by decide
    simp only [renderMembers]
    rw [parseMembers_member, if_neg e1, if_pos ⟨rfl, rfl⟩]
  | kv :: next :: rest, fuel, _, hf => by
    obtain ⟨n, rfl⟩ : ∃ n, fuel = n + 1 := ⟨fuel - 1, by simp at hf; omega⟩
    have ih := parseMembers_render (next :: rest) n (by simp) (by simp at hf ⊢; omega)
    simp only [renderMembers, List.append_assoc, List.cons_append]
    rw [parseMembers_member, if_pos rfl, ih]
    rfl

theorem parseObject_render (kvs : List (String × String)) :
    parseObject (render kvs) = some kvs := by
  unfold render parseObject
  simp only [if_true]
  cases kvs with
  | nil => simp [renderMembers]
  | cons kv rest =>
    have hne : ¬ (renderMembers (kv :: rest) ++ [rbrace] = [rbrace]) := by
      intro h
      have hl := congrArg List.length h
      have := length_le_renderMembers (kv :: rest)
      simp only [List.length_append, List.length_singleton, List.length_cons] at hl this
      omega
    rw [if_neg hne]
    apply parseMembers_render _ _ (by simp)
    have := length_le_renderMembers (kv :: rest)
    simp only [List.length_cons, List.length_append] at this ⊢
    omega

theorem ofFields_fields (m : Message) : Message.ofFields m.fields = m := by
  obtain ⟨s, r, c⟩ := m
  by_cases hs : s = "" <;> by_cases hr : r = "" <;> by_cases hc : c = "" <;>
    simp [Message.fields, Message.ofFields, Message.setField, hs, hr, hc]

theorem decode_encode (m : Message) : decode (encode m) = some m := by
  unfold decode encode
  simp only [parseObject_render, Option.map_some', ofFields_fields]


theorem tracked_step_ok (marshal : Message → Bytes) (regs : List Conn) (m : ClientManager)
    (i : Input) (ht : Tracked regs m) (hp : ∀ c, i.pump c ≠ Pump.stalled) :
    ∃ m', ClientManager.startStep marshal m i = Outcome.ok m' := by
  have hwf := wellFormed_of_tracked ht
  obtain ⟨ev, pump⟩ := i
  cases ev with
  | register c =>
    obtain ⟨m', h, _⟩ := register_step marshal m c pump hwf (fun d _ _ => hp d)
    exact ⟨m', h⟩
  | unregister c =>
    by_cases hc : c ∈ m.clients
    · obtain ⟨m', h, _⟩ := unregister_step marshal m c pump hwf hc (fun d _ _ => hp d)
      exact ⟨m', h⟩
    · exact ⟨m, unregister_absent marshal m c pump hc⟩
  | broadcast b =>
    obtain ⟨m', h, _⟩ := broadcast_step marshal m b pump hwf
    exact ⟨m', h⟩

theorem start_tracked_ok (marshal : Message → Bytes) :
    ∀ (es : List Input) (regs : List Conn) (m : ClientManager), Tracked regs m →
      (regs ++ registrations es).Nodup → NoStalledPump es →
      ∃ m', ClientManager.start marshal m es = Outcome.ok m' := by
  intro es
  induction es with
  | nil => intro regs m _ _ _; exact ⟨m, rfl⟩
  | cons i rest ih =>
    intro regs m ht hfresh hp
    have hsplit : registrations (i :: rest) = registrations [i] ++ registrations rest :=
      registrations_append [i] rest
    rw [hsplit, ← List.append_assoc] at hfresh
    have hfresh1 : (regs ++ registrations [i]).Nodup := (List.nodup_append.mp hfresh).1
    obtain ⟨m1, h1⟩ := tracked_step_ok marshal regs m i ht (hp i (List.mem_cons_self _ _))
    rw [start_cons, h1]
    exact ih _ m1 ((tracked_step marshal regs m i ht hfresh1).2 m1 h1) hfresh
      (fun j hj => hp j (List.mem_cons_of_mem _ hj))

theorem step_mem (marshal : Message → Bytes) (m m' : ClientManager) (i : Input)
    (h : ClientManager.startStep marshal m i = Outcome.ok m') (c : Conn) :
    c ∈ m'.clients ↔ i.ev = Event.register c ∨ (c ∈ m.clients ∧ removes i c = false) := by
  obtain ⟨ev, pump⟩ := i
  cases ev with
  | register d =>
    have hstep : ClientManager.startStep marshal m ⟨Event.register d, pump⟩ =
        ClientManager.sendLoop pump (marshal connectedNotice) d (m.insert d).clients
          (m.insert d) := rfl
    rw [hstep] at h
    rw [(sendLoop_clients_closed _ _ _ _ _ _ h).1, mem_clients_insert]
    simp only [Event.register.injEq, removes, and_true]
    constructor
    · rintro (h1 | h1)
      · exact Or.inl h1.symm
      · exact Or.inr h1
    · rintro (h1 | h1)
      · exact Or.inl h1.symm
      · exact Or.inr h1
  | unregister d =>
    have hne : ¬ (Event.unregister d = Event.register c) := by intro e; cases e
    simp only [removes, decide_eq_false_iff_not, hne, false_or]
    by_cases hd : d ∈ m.clients
    · by_cases hcl : (m.chan d).closed = true
      · simp only [ClientManager.startStep] at h
        rw [if_pos hd, if_pos hcl] at h
        cases h
      · have ho : (m.chan d).closed = false := by simpa using hcl
        rw [unregister_present marshal m d pump hd ho] at h
        have hcl1 := (sendLoop_clients_closed _ _ _ _ _ _ h).1
        rw [hcl1, mem_clients_delete]
        constructor
        · rintro ⟨h1, h2⟩; exact ⟨h1, fun e => h2 e.symm⟩
        · rintro ⟨h1, h2⟩; exact ⟨h1, fun e => h2 e.symm⟩
    · rw [unregister_absent marshal m d pump hd] at h
      cases h
      constructor
      · intro h1; exact ⟨h1, fun e => hd (e ▸ h1)⟩
      · intro h1; exact h1.1
  | broadcast b =>
    have hstep : ClientManager.startStep marshal m ⟨Event.broadcast b, pump⟩ =
        ClientManager.broadcastLoop pump b m.clients m := rfl
    rw [hstep] at h
    rw [broadcastLoop_mem pump b _ _ _ h c]
    have hne : ¬ (Event.broadcast b = Event.register c) := by intro e; cases e
    simp only [removes, decide_eq_false_iff_not, not_not, hne, false_or]
    constructor
    · rintro ⟨h1, h2⟩; exact ⟨h1, h2 h1⟩
    · rintro ⟨h1, h2⟩; exact ⟨h1, fun _ => h2⟩

theorem liveSpec_append (es : List Input) (i : Input) (c : Conn) :
    liveSpec (es ++ [i]) c =
      if i.ev = Event.register c then true
      else if removes i c = true then false
      else liveSpec es c := by
  simp [liveSpec, liveNewestFirst]

theorem start_snoc (marshal : Message → Bytes) (es : List Input) (i : Input)
    (m m' : ClientManager) (h : ClientManager.start marshal m (es ++ [i]) = Outcome.ok m') :
    ∃ m0, ClientManager.start marshal m es = Outcome.ok m0 ∧
      ClientManager.startStep marshal m0 i = Outcome.ok m' := by
  rw [start_append] at h
  cases h0 : ClientManager.start marshal m es with
  | ok m0 =>
    rw [h0] at h
    refine ⟨m0, rfl, ?_⟩
    simp only [start_cons] at h
    cases h1 : ClientManager.startStep marshal m0 i with
    | ok m1 =>
      rw [h1] at h
      simp only [ClientManager.start] at h
      rw [h]
    | blocked => rw [h1] at h; cases h
    | panic => rw [h1] at h; cases h
  | blocked => rw [h0] at h; cases h
  | panic => rw [h0] at h; cases h

theorem start_live (marshal : Message → Bytes) (es : List Input) :
    ∀ m, ClientManager.start marshal ClientManager.empty es = Outcome.ok m →
      ∀ c, c ∈ m.clients ↔ liveSpec es c = true := by
  induction es using List.reverseRecOn with
  | nil =>
    intro m h c
    simp only [ClientManager.start, Outcome.ok.injEq] at h
    subst h
    simp [ClientManager.empty, liveSpec, liveNewestFirst]
  | append_singleton es i ih =>
    intro m h c
    obtain ⟨m0, h0, h1⟩ := start_snoc marshal es i _ m h
    rw [step_mem marshal m0 m i h1 c, liveSpec_append, ih m0 h0 c]
    by_cases hr : i.ev = Event.register c
    · simp [hr]
    · by_cases hx : removes i c = true
      · simp [hr, hx]
      · simp [hr, hx]

theorem broadcasts_skip (marshal : Message → Bytes) (c : Conn) :
    ∀ (further : List Input) (m1 : ClientManager), m1.WellFormed → c ∉ m1.clients →
      (∀ i ∈ further, ∃ b, i.ev = Event.broadcast b) →
      ∃ m2, ClientManager.start marshal m1 further = Outcome.ok m2 ∧ c ∉ m2.clients ∧
        m2.chan c = m1.chan c := by
  intro further
  induction further with
  | nil => intro m1 _ hc _; exact ⟨m1, rfl, hc, rfl⟩
  | cons i rest ih =>
    intro m1 hwf hc hall
    obtain ⟨b, hb⟩ := hall i (List.mem_cons_self _ _)
    obtain ⟨ev, pump⟩ := i
    simp only at hb
    subst hb
    obtain ⟨m', h1, _, hmem, hchan⟩ := broadcast_step marshal m1 b pump hwf
    have hwf' := broadcast_wellFormed marshal m1 m' b pump hwf h1
    have hc' : c ∉ m'.clients := fun e => hc ((hmem c).mp e).1
    obtain ⟨m2, h2, hc2, hch2⟩ := ih m' hwf' hc'
      (fun j hj => hall j (List.mem_cons_of_mem _ hj))
    refine ⟨m2, ?_, hc2, ?_⟩
    · rw [start_cons, h1]; exact h2
    · rw [hch2, hchan c, if_neg hc]

theorem writeLoop_spec (fails : Nat → Bool) :
    ∀ (queue : List Bytes) (n : Nat) (closed : Bool),
      ((Client.writeLoop fails n queue closed).calls.take queue.length).map SocketCall.text? =
        queue.map some ∧
      (Client.writeLoop fails n queue closed).calls.drop queue.length =
        (if closed = true then
          [SocketCall.writeClose (fails (n + queue.length)), SocketCall.close]
        else []) ∧
      (Client.writeLoop fails n queue closed).toHub = [] ∧
      (Client.writeLoop fails n queue closed).returned = closed := by
  intro queue
  induction queue with
  | nil =>
    intro n closed
    cases closed <;> simp [Client.writeLoop]
  | cons message rest ih =>
    intro n closed
    obtain ⟨h1, h2, h3, h4⟩ := ih (n + 1) closed
    simp only [Client.writeLoop, List.length_cons, List.take_succ_cons, List.map_cons,
      List.drop_succ_cons]
    refine ⟨?_, ?_, h3, h4⟩
    · rw [h1]; rfl
    · rw [h2]
      have e : n + 1 + rest.length = n + (rest.length + 1) := by omega
      rw [e]

theorem writeLoop_eq_spec (fails : Nat → Bool) (hno : ∀ n, fails n = false) :
    ∀ (queue : List Bytes) (n : Nat) (closed : Bool),
      Client.writeLoop fails n queue closed = writeSpecLoop fails n queue closed := by
  intro queue
  induction queue with
  | nil => intro n closed; rfl
  | cons message rest ih =>
    intro n closed
    simp only [Client.writeLoop, writeSpecLoop, hno n, ih (n + 1) closed]
    simp

/-! ## The order in which `range` visits the keys does not matter -/

theorem sendLoop_blocked (pump : Conn → Pump) (b : Bytes) (ignore : Conn) :
    ∀ (l : List Conn) (m : ClientManager),
      (∀ d ∈ l, d ≠ ignore → (m.chan d).closed = false) →
      (∃ d ∈ l, d ≠ ignore ∧ pump d = Pump.stalled) →
      ClientManager.sendLoop pump b ignore l m = Outcome.blocked := by
  intro l
  induction l with
  | nil => intro m _ h; obtain ⟨d, hd, _⟩ := h; cases hd
  | cons c rest ih =>
    intro m hop hex
    unfold ClientManager.sendLoop
    by_cases hc : c ≠ ignore
    · rw [if_pos hc]
      have hcl : ¬ (m.chan c).closed = true := by
        rw [hop c (List.mem_cons_self _ _) hc]; simp
      rw [if_neg hcl]
      by_cases hs : pump c = Pump.stalled
      · rw [if_pos hs]
      · rw [if_neg hs]
        apply ih
        · intro d hd hdi
          rw [chan_enqueue]
          by_cases hdc : d = c
          · subst hdc; simpa using hop d (List.mem_cons_self _ _) hdi
          · simpa [hdc] using hop d (List.mem_cons_of_mem _ hd) hdi
        · obtain ⟨d, hd, hdi, hds⟩ := hex
          rcases List.mem_cons.mp hd with rfl | hd
          · exact absurd hds hs
          · exact ⟨d, hd, hdi, hds⟩
    · rw [if_neg hc]
      apply ih m (fun d hd hdi => hop d (List.mem_cons_of_mem _ hd) hdi)
      obtain ⟨d, hd, hdi, hds⟩ := hex
      rcases List.mem_cons.mp hd with rfl | hd
      · exact absurd hdi hc
      · exact ⟨d, hd, hdi, hds⟩

theorem sameHub_wellFormed {m m' : ClientManager} (hs : SameHub m m') (hwf : m.WellFormed) :
    m'.WellFormed :=
  ⟨hs.1.nodup_iff.mp hwf.1, fun c hc => by
    rw [← hs.2 c]; exact hwf.2 c (hs.1.mem_iff.mpr hc)⟩

theorem sameHub_of_spec {a b : ClientManager} (ha : a.clients.Nodup) (hb : b.clients.Nodup)
    (hmem : ∀ d, d ∈ a.clients ↔ d ∈ b.clients) (hchan : ∀ d, a.chan d = b.chan d) :
    SameHub a b :=
  ⟨(List.perm_ext_iff_of_nodup ha hb).mpr hmem, hchan⟩

theorem startStep_order (marshal : Message → Bytes) (m m' : ClientManager) (i : Input)
    (hwf : m.WellFormed) (hs : SameHub m m') :
    (∀ a, ClientManager.startStep marshal m i = Outcome.ok a →
      ∃ b, ClientManager.startStep marshal m' i = Outcome.ok b ∧ SameHub a b) ∧
    (ClientManager.startStep marshal m i = Outcome.blocked →
      ClientManager.startStep marshal m' i = Outcome.blocked) ∧
    ClientManager.startStep marshal m i ≠ Outcome.panic := by
  have hwf' := sameHub_wellFormed hs hwf
  have hmem : ∀ d, d ∈ m.clients ↔ d ∈ m'.clients := fun d => hs.1.mem_iff
  obtain ⟨ev, pump⟩ := i
  cases ev with
  | register c =>
    by_cases hp : ∀ d ∈ m.clients, d ≠ c → pump d ≠ Pump.stalled
    · obtain ⟨a, ha, hacl, hach⟩ := register_step marshal m c pump hwf hp
      obtain ⟨b, hb, hbcl, hbch⟩ := register_step marshal m' c pump hwf'
        (fun d hd => hp d ((hmem d).mpr hd))
      rw [ha]
      refine ⟨fun a' ha' => ?_, (fun h => nomatch h), (fun h => nomatch h)⟩
      cases ha'
      refine ⟨b, hb, sameHub_of_spec ?_ ?_ ?_ ?_⟩
      · rw [hacl]; exact nodup_clients_insert m c hwf.1
      · rw [hbcl]; exact nodup_clients_insert m' c hwf'.1
      · intro d
        rw [hacl, hbcl, mem_clients_insert, mem_clients_insert, hmem d]
      · intro d
        rw [hach d, hbch d, hs.2 d]
        simp only [hmem d]
    · have hblock : ∀ (n : ClientManager), n.WellFormed → (∀ d, d ∈ m.clients ↔ d ∈ n.clients) →
          ClientManager.startStep marshal n ⟨Event.register c, pump⟩ = Outcome.blocked := by
        intro n hn hmn
        apply sendLoop_blocked
        · intro d hd hdc
          rcases (mem_clients_insert n c d).mp hd with h | h
          · exact absurd h hdc
          · exact hn.2 d h
        · push_neg at hp
          obtain ⟨d, hd, hdc, hds⟩ := hp
          exact ⟨d, (mem_clients_insert n c d).mpr (Or.inr ((hmn d).mp hd)), hdc, hds⟩
      rw [hblock m hwf (fun _ => Iff.rfl)]
      exact ⟨(fun a h => nomatch h), fun _ => hblock m' hwf' hmem, (fun h => nomatch h)⟩
  | unregister c =>
    by_cases hc : c ∈ m.clients
    · have hc' : c ∈ m'.clients := (hmem c).mp hc
      by_cases hp : ∀ d ∈ m.clients, d ≠ c → pump d ≠ Pump.stalled
      · obtain ⟨a, ha, hacl, hach⟩ := unregister_step marshal m c pump hwf hc hp
        obtain ⟨b, hb, hbcl, hbch⟩ := unregister_step marshal m' c pump hwf' hc'
          (fun d hd => hp d ((hmem d).mpr hd))
        rw [ha]
        refine ⟨fun a' ha' => ?_, (fun h => nomatch h), (fun h => nomatch h)⟩
        cases ha'
        refine ⟨b, hb, sameHub_of_spec ?_ ?_ ?_ ?_⟩
        · rw [hacl]; exact nodup_clients_delete m c hwf.1
        · rw [hbcl]; exact nodup_clients_delete m' c hwf'.1
        · intro d
          rw [hacl, hbcl, mem_clients_delete, mem_clients_delete, hmem d]
        · intro d
          rw [hach d, hbch d, hs.2 d, hs.2 c]
          simp only [hmem d]
      · have hblock : ∀ (n : ClientManager), n.WellFormed →
            (∀ d, d ∈ m.clients ↔ d ∈ n.clients) →
            ClientManager.startStep marshal n ⟨Event.unregister c, pump⟩ =
              Outcome.blocked := by
          intro n hn hmn
          have hcn : c ∈ n.clients := (hmn c).mp hc
          rw [unregister_present marshal n c pump hcn (hn.2 c hcn)]
          apply sendLoop_blocked
          · intro d hd hdc
            rw [chan_delete, chan_close, if_neg hdc]
            exact hn.2 d ((mem_clients_delete (n.close c) c d).mp hd).1
          · push_neg at hp
            obtain ⟨d, hd, hdc, hds⟩ := hp
            exact ⟨d, (mem_clients_delete (n.close c) c d).mpr ⟨(hmn d).mp hd, hdc⟩, hdc, hds⟩
        rw [hblock m hwf (fun _ => Iff.rfl)]
        exact ⟨(fun a h => nomatch h), fun _ => hblock m' hwf' hmem, (fun h => nomatch h)⟩
    · have hc' : c ∉ m'.clients := fun e => hc ((hmem c).mpr e)
      rw [unregister_absent marshal m c pump hc, unregister_absent marshal m' c pump hc']
      refine ⟨fun a h => ?_, (fun h => nomatch h), (fun h => nomatch h)⟩
      cases h
      exact ⟨m', rfl, hs⟩
  | broadcast msg =>
    obtain ⟨a, ha, hand, hamem, hach⟩ := broadcast_step marshal m msg pump hwf
    obtain ⟨b, hb, hbnd, hbmem, hbch⟩ := broadcast_step marshal m' msg pump hwf'
    rw [ha]
    refine ⟨fun a' ha' => ?_, (fun h => nomatch h), (fun h => nomatch h)⟩
    cases ha'
    refine ⟨b, hb, sameHub_of_spec hand hbnd ?_ ?_⟩
    · intro d; rw [hamem d, hbmem d, hmem d]
    · intro d
      rw [hach d, hbch d, hs.2 d]
      simp only [hmem d]

/-! ## The claims -/

/-- C1. Unregister is idempotent: when the handler of `Unregister(c)` has
returned with manager `m1`, the handler of a second `Unregister(c)` returns with
the very same manager `m1` (same keys, same queue contents, same closed flags,
so it enqueues no notice and closes no channel), and the run of the two events
ends as the run of the first alone.  This holds from every manager, reachable
or not, and whatever the pumps do. -/
theorem unregister_idempotent (marshal : Message → Bytes) (m m1 : ClientManager) (c : Conn)
    (p1 p2 : Conn → Pump)
    (h : ClientManager.startStep marshal m ⟨Event.unregister c, p1⟩ = Outcome.ok m1) :
    ClientManager.startStep marshal m1 ⟨Event.unregister c, p2⟩ = Outcome.ok m1 ∧
    ClientManager.start marshal m [⟨Event.unregister c, p1⟩, ⟨Event.unregister c, p2⟩] =
      ClientManager.start marshal m [⟨Event.unregister c, p1⟩] := by
  have hc1 : c ∉ m1.clients := by
    by_cases hc : c ∈ m.clients
    · by_cases hcl : (m.chan c).closed = true
      · simp only [ClientManager.startStep] at h
        rw [if_pos hc, if_pos hcl] at h
        cases h
      · have ho : (m.chan c).closed = false := by simpa using hcl
        rw [unregister_present marshal m c p1 hc ho] at h
        have hcl1 := (sendLoop_clients_closed _ _ _ _ _ _ h).1
        rw [hcl1, mem_clients_delete]
        exact fun e => e.2 rfl
    · rw [unregister_absent marshal m c p1 hc] at h
      cases h
      exact hc
  have h2 := unregister_absent marshal m1 c p2 hc1
  refine ⟨h2, ?_⟩
  rw [start_cons, start_cons, h]
  simp only [start_cons, h2, ClientManager.start]

/-- Witness of C1: B leaves `hubABC`; the second `Unregister(B)` changes
nothing. -/
theorem unregister_idempotent_witness :
    ClientManager.startStep encode hubABC ⟨Event.unregister 1, allWaiting⟩ = Outcome.ok hubAC ∧
    (ClientManager.startStep encode hubAC ⟨Event.unregister 1, allWaiting⟩ = Outcome.ok hubAC ∧
    ClientManager.start encode hubABC
        [⟨Event.unregister 1, allWaiting⟩, ⟨Event.unregister 1, allWaiting⟩] =
      ClientManager.start encode hubABC [⟨Event.unregister 1, allWaiting⟩]) :=
  ⟨rfl, unregister_idempotent encode hubABC hubAC 1 allWaiting allWaiting rfl⟩

/-- C2. Live-set / queue-closure invariant: in every manager reached from the
empty hub by a run of Register, Unregister and Broadcast events in which each
connection is registered at most once (its channel is then open, as `wsPage`
creates it), a connection that has been registered is a key of `clients` if and
only if its channel has not been closed; and every further event that keeps
registrations fresh preserves this. -/
theorem live_iff_queue_open (marshal : Message → Bytes) (es : List Input) (m : ClientManager)
    (hfresh : FreshRegistrations es)
    (h : ClientManager.start marshal ClientManager.empty es = Outcome.ok m) :
    (∀ c ∈ registrations es, (c ∈ m.clients ↔ (m.chan c).closed = false)) ∧
    (∀ (i : Input) (m' : ClientManager), FreshRegistrations (es ++ [i]) →
      ClientManager.startStep marshal m i = Outcome.ok m' →
      ∀ c ∈ registrations (es ++ [i]), (c ∈ m'.clients ↔ (m'.chan c).closed = false)) := by
  have key : ∀ (regs : List Conn) (m : ClientManager), Tracked regs m →
      ∀ c ∈ regs, (c ∈ m.clients ↔ (m.chan c).closed = false) := by
    intro regs m ht c hc
    constructor
    · intro hm; exact (ht.2.1 c hm).2
    · intro ho
      by_contra hn
      rw [ht.2.2.1 c hc hn] at ho
      cases ho
  have ht : Tracked (registrations es) m := by
    have := (start_tracked marshal es [] ClientManager.empty tracked_empty
      (by simpa using hfresh)).2 m h
    simpa using this
  refine ⟨key _ m ht, ?_⟩
  intro i m' hfresh' hstep c hc
  rw [registrations_append] at hc
  have hf : (registrations es ++ registrations [i]).Nodup := by
    rw [← registrations_append]; exact hfresh'
  exact key _ m' ((tracked_step marshal _ m i ht hf).2 m' hstep) c hc

/-- Witness of C2: A, B and C join, then B leaves. -/
theorem live_iff_queue_open_witness :
    FreshRegistrations joinThenLeave ∧
    ClientManager.start encode ClientManager.empty joinThenLeave = Outcome.ok hubAC ∧
    ((∀ c ∈ registrations joinThenLeave,
        (c ∈ hubAC.clients ↔ (hubAC.chan c).closed = false)) ∧
    (∀ (i : Input) (m' : ClientManager), FreshRegistrations (joinThenLeave ++ [i]) →
      ClientManager.startStep encode hubAC i = Outcome.ok m' →
      ∀ c ∈ registrations (joinThenLeave ++ [i]),
        (c ∈ m'.clients ↔ (m'.chan c).closed = false))) :=
  ⟨by decide, rfl, live_iff_queue_open encode joinThenLeave hubAC (by decide) rfl⟩

/-- C7, amended. In every run of Register, Unregister and Broadcast events from
the empty hub in which each connection is registered at most once, no handler
closes a closed channel and none sends on a closed channel: the run does not
panic.  A channel is closed only by a handler that found it open, so none is
closed twice.  When moreover no pump is stalled, every event of the run is
resolved: the run ends with a manager. -/
theorem hub_never_panics (marshal : Message → Bytes) (es : List Input)
    (hfresh : FreshRegistrations es) :
    ClientManager.start marshal ClientManager.empty es ≠ Outcome.panic ∧
    (NoStalledPump es →
      ∃ m, ClientManager.start marshal ClientManager.empty es = Outcome.ok m) := by
  have hf : ([] ++ registrations es).Nodup := by simpa using hfresh
  exact ⟨(start_tracked marshal es [] ClientManager.empty tracked_empty hf).1,
    fun hp => start_tracked_ok marshal es [] ClientManager.empty tracked_empty hf hp⟩

/-- Witness of C7, amended: A, B and C join, a broadcast evicts C, B leaves
twice. -/
theorem hub_never_panics_witness :
    FreshRegistrations joinEvictLeave ∧
    ClientManager.start encode ClientManager.empty joinEvictLeave ≠ Outcome.panic ∧
    ∃ m, ClientManager.start encode ClientManager.empty joinEvictLeave = Outcome.ok m :=
  ⟨by decide, (hub_never_panics encode joinEvictLeave (by decide)).1,
    (hub_never_panics encode joinEvictLeave (by decide)).2 (by
      intro i hi c
      simp only [joinEvictLeave, joinThenEvict, joinABC, List.cons_append, List.nil_append,
        List.mem_cons, List.mem_singleton, List.not_mem_nil, or_false] at hi
      rcases hi with rfl | rfl | rfl | rfl | rfl | rfl
      · simp [allWaiting]
      · simp [allWaiting]
      · simp [allWaiting]
      · by_cases hc : c = 2 <;> simp [allWaitingBut, hc]
      · simp [allWaiting]
      · simp [allWaiting])⟩

/-- Counterexample to C7 as stated: a connection that is registered again after
it was unregistered is a key whose channel is closed, and the next
`Unregister` closes that channel a second time. -/
theorem hub_panics_on_reregistration :
    ClientManager.start encode ClientManager.empty joinLeaveTwice = Outcome.panic :=
  rfl

/-- C8. Replay property: when the run of a sequence of Register, Unregister
and Broadcast events from the empty hub ends with manager `m`, a connection is
a key of `m.clients` if and only if it was Registered and, since its last
Register, neither Unregistered nor evicted by a failed enqueue (`liveSpec`);
and the handler of a Broadcast or an Unregister never adds a key. -/
theorem replay_live_set (marshal : Message → Bytes) (es : List Input) (m : ClientManager)
    (h : ClientManager.start marshal ClientManager.empty es = Outcome.ok m) :
    (∀ c, c ∈ m.clients ↔ liveSpec es c = true) ∧
    (∀ (m0 m1 : ClientManager) (i : Input), (∀ c, i.ev ≠ Event.register c) →
      ClientManager.startStep marshal m0 i = Outcome.ok m1 →
      ∀ c ∈ m1.clients, c ∈ m0.clients) := by
  refine ⟨start_live marshal es m h, ?_⟩
  intro m0 m1 i hi hstep c hc
  rcases (step_mem marshal m0 m1 i hstep c).mp hc with h1 | h1
  · exact absurd h1 (hi c)
  · exact h1.1

/-- Witness of C8: A, B and C join and a broadcast finds the pump of C busy. -/
theorem replay_live_set_witness :
    ClientManager.start encode ClientManager.empty joinThenEvict = Outcome.ok (hubAB "x") ∧
    ((∀ c, c ∈ (hubAB "x").clients ↔ liveSpec joinThenEvict c = true) ∧
    (∀ (m0 m1 : ClientManager) (i : Input), (∀ c, i.ev ≠ Event.register c) →
      ClientManager.startStep encode m0 i = Outcome.ok m1 →
      ∀ c ∈ m1.clients, c ∈ m0.clients)) :=
  ⟨rfl, replay_live_set encode joinThenEvict (hubAB "x") rfl⟩

/-- C3. Backpressure eviction on Broadcast: from a well-formed manager, when
the channel of member `c` cannot accept the non-blocking send of a Broadcast
(no receiver is waiting), the handler of that same Broadcast returns with the
channel of `c` closed, `c` no longer a key, and nothing enqueued on `c`.  Every
run of further Broadcasts then ends with a manager in which `c` is still absent
and its channel is untouched; as a send on that closed channel would panic, no
later Broadcast attempts one. -/
theorem broadcast_evicts_saturated (marshal : Message → Bytes) (m : ClientManager)
    (message : Bytes) (pump : Conn → Pump) (c : Conn) (hwf : m.WellFormed)
    (hc : c ∈ m.clients) (hfull : pump c ≠ Pump.waiting) :
    ∃ m1, ClientManager.startStep marshal m ⟨Event.broadcast message, pump⟩ = Outcome.ok m1 ∧
      (m1.chan c).closed = true ∧ c ∉ m1.clients ∧ (m1.chan c).queue = (m.chan c).queue ∧
      ∀ further : List Input, (∀ i ∈ further, ∃ b, i.ev = Event.broadcast b) →
        ∃ m2, ClientManager.start marshal m1 further = Outcome.ok m2 ∧ c ∉ m2.clients ∧
          m2.chan c = m1.chan c := by
  obtain ⟨m1, h1, _, hmem, hchan⟩ := broadcast_step marshal m message pump hwf
  have hwf1 := broadcast_wellFormed marshal m m1 message pump hwf h1
  have hc1 : c ∉ m1.clients := fun e => hfull ((hmem c).mp e).2
  refine ⟨m1, h1, ?_, hc1, ?_, ?_⟩
  · rw [hchan c, if_pos hc, if_neg hfull]
  · rw [hchan c, if_pos hc, if_neg hfull]
  · intro further hall
    exact broadcasts_skip marshal c further m1 hwf1 hc1 hall

/-- Witness of C3: a broadcast to `hubABC` while the pump of C is busy. -/
theorem broadcast_evicts_saturated_witness :
    hubABC.WellFormed ∧ 2 ∈ hubABC.clients ∧ allWaitingBut 2 Pump.busy 2 ≠ Pump.waiting ∧
    ∃ m1, ClientManager.startStep encode hubABC
        ⟨Event.broadcast "x", allWaitingBut 2 Pump.busy⟩ = Outcome.ok m1 ∧
      (m1.chan 2).closed = true ∧ 2 ∉ m1.clients ∧ (m1.chan 2).queue = (hubABC.chan 2).queue ∧
      ∀ further : List Input, (∀ i ∈ further, ∃ b, i.ev = Event.broadcast b) →
        ∃ m2, ClientManager.start encode m1 further = Outcome.ok m2 ∧ 2 ∉ m2.clients ∧
          m2.chan 2 = m1.chan 2 :=
  ⟨by decide, by decide, by decide,
    broadcast_evicts_saturated encode hubABC "x" (allWaitingBut 2 Pump.busy) 2
      (by decide) (by decide) (by decide)⟩

/-- C4. Broadcast delivery: from a well-formed manager the handler of
`Broadcast(message)` returns; every member whose channel accepts the send has
exactly `message` appended to its queue, unchanged, and stays a member (the
handler knows no sender, so the member that originated the message is served as
the others); nothing is enqueued on a member that cannot accept; a connection
that is not a member keeps its channel as it was and stays out. -/
theorem broadcast_delivers (marshal : Message → Bytes) (m : ClientManager) (message : Bytes)
    (pump : Conn → Pump) (hwf : m.WellFormed) :
    ∃ m1, ClientManager.startStep marshal m ⟨Event.broadcast message, pump⟩ = Outcome.ok m1 ∧
      (∀ d ∈ m.clients, pump d = Pump.waiting →
        m1.chan d = { closed := false, queue := (m.chan d).queue ++ [message] } ∧
        d ∈ m1.clients) ∧
      (∀ d ∈ m.clients, pump d ≠ Pump.waiting → (m1.chan d).queue = (m.chan d).queue) ∧
      (∀ d, d ∉ m.clients → m1.chan d = m.chan d ∧ d ∉ m1.clients) := by
  obtain ⟨m1, h1, _, hmem, hchan⟩ := broadcast_step marshal m message pump hwf
  refine ⟨m1, h1, ?_, ?_, ?_⟩
  · intro d hd hw
    refine ⟨?_, (hmem d).mpr ⟨hd, hw⟩⟩
    rw [hchan d, if_pos hd, if_pos hw, hwf.2 d hd]
  · intro d hd hw
    rw [hchan d, if_pos hd, if_neg hw]
  · intro d hd
    refine ⟨?_, fun e => hd ((hmem d).mp e).1⟩
    rw [hchan d, if_neg hd]

/-- Witness of C4: A, B and C are registered and every pump is waiting; the
envelope of B's "hello" is enqueued once on A, once on B and once on C. -/
theorem broadcast_delivers_witness :
    ClientManager.start encode ClientManager.empty joinABC = Outcome.ok hubABC ∧
    Client.read encode 1 "B" ["hello"] =
      [Event.broadcast helloFromB, Event.unregister 1, Event.unregister 1] ∧
    ClientManager.startStep encode hubABC ⟨Event.broadcast helloFromB, allWaiting⟩ =
      Outcome.ok (hubABCAfter helloFromB) ∧
    ((hubABCAfter helloFromB).chan 0).queue.count helloFromB = 1 ∧
    ((hubABCAfter helloFromB).chan 1).queue.count helloFromB = 1 ∧
    ((hubABCAfter helloFromB).chan 2).queue.count helloFromB = 1 ∧
    hubABC.WellFormed ∧
    ∃ m1, ClientManager.startStep encode hubABC ⟨Event.broadcast helloFromB, allWaiting⟩ =
        Outcome.ok m1 ∧
      (∀ d ∈ hubABC.clients, allWaiting d = Pump.waiting →
        m1.chan d = { closed := false, queue := (hubABC.chan d).queue ++ [helloFromB] } ∧
        d ∈ m1.clients) ∧
      (∀ d ∈ hubABC.clients, allWaiting d ≠ Pump.waiting →
        (m1.chan d).queue = (hubABC.chan d).queue) ∧
      (∀ d, d ∉ hubABC.clients → m1.chan d = hubABC.chan d ∧ d ∉ m1.clients) :=
  ⟨rfl, rfl, rfl, by decide, by decide, by decide, by decide,
    broadcast_delivers encode hubABC helloFromB allWaiting (by decide)⟩

/-- C5, amended. Join-notice exclusion: from a well-formed manager, when no
other member's pump is stalled, the handler of `Register(c)` returns; `c` is
then a key, the keys are `c` and the former keys, nothing is enqueued on the
channel of `c`, every other connection that is a member at that moment has
exactly one envelope appended, the one with content only (no sender, no
recipient), and a connection that is not a member at that moment, so any that
joins later, gets nothing. -/
theorem register_notice_excludes_joiner (marshal : Message → Bytes) (m : ClientManager)
    (c : Conn) (pump : Conn → Pump) (hwf : m.WellFormed)
    (hp : ∀ d ∈ m.clients, d ≠ c → pump d ≠ Pump.stalled) :
    ∃ m1, ClientManager.startStep marshal m ⟨Event.register c, pump⟩ = Outcome.ok m1 ∧
      c ∈ m1.clients ∧ (∀ d, d ∈ m1.clients ↔ d = c ∨ d ∈ m.clients) ∧
      m1.chan c = m.chan c ∧
      (∀ d ∈ m.clients, d ≠ c →
        m1.chan d =
          { closed := false,
            queue := (m.chan d).queue ++
              [marshal { Sender := "", Recipient := "",
                         Content := "/A new socket has connected." }] }) ∧
      (∀ d, d ∉ m.clients → m1.chan d = m.chan d) := by
  obtain ⟨m1, h1, hcl, hchan⟩ := register_step marshal m c pump hwf hp
  have hmem : ∀ d, d ∈ m1.clients ↔ d = c ∨ d ∈ m.clients := by
    intro d; rw [hcl]; exact mem_clients_insert m c d
  refine ⟨m1, h1, (hmem c).mpr (Or.inl rfl), hmem, ?_, ?_, ?_⟩
  · rw [hchan c, if_neg (fun e => e.2 rfl)]
  · intro d hd hdc
    rw [hchan d, if_pos ⟨hd, hdc⟩]
    rfl
  · intro d hd
    rw [hchan d, if_neg (fun e => hd e.1)]

/-- Witness of C5, amended: D joins `hubABC` while every pump is waiting. -/
theorem register_notice_excludes_joiner_witness :
    hubABC.WellFormed ∧ (∀ d ∈ hubABC.clients, d ≠ 3 → allWaiting d ≠ Pump.stalled) ∧
    ClientManager.startStep encode hubABC ⟨Event.register 3, allWaiting⟩ = Outcome.ok hubABCD ∧
    ∃ m1, ClientManager.startStep encode hubABC ⟨Event.register 3, allWaiting⟩ =
        Outcome.ok m1 ∧
      3 ∈ m1.clients ∧ (∀ d, d ∈ m1.clients ↔ d = 3 ∨ d ∈ hubABC.clients) ∧
      m1.chan 3 = hubABC.chan 3 ∧
      (∀ d ∈ hubABC.clients, d ≠ 3 →
        m1.chan d =
          { closed := false,
            queue := (hubABC.chan d).queue ++
              [encode { Sender := "", Recipient := "",
                        Content := "/A new socket has connected." }] }) ∧
      (∀ d, d ∉ hubABC.clients → m1.chan d = hubABC.chan d) :=
  ⟨by decide, by decide, rfl,
    register_notice_excludes_joiner encode hubABC 3 allWaiting (by decide) (by decide)⟩

/-- Counterexample to C5 as stated: D joins `hubABC` while the pump of the
member C is stalled.  `hubABC` is reached from the empty hub by fresh
registrations and is well formed, yet the blocking send of the join notice to C
never returns: the handler of `Register(D)` ends with no manager, and C never
has the notice enqueued. -/
theorem register_blocks_on_stalled_member :
    ClientManager.start encode ClientManager.empty joinABC = Outcome.ok hubABC ∧
    FreshRegistrations joinABC ∧ hubABC.WellFormed ∧ 2 ∈ hubABC.clients ∧
    ClientManager.startStep encode hubABC
      ⟨Event.register 3, allWaitingBut 2 Pump.stalled⟩ = Outcome.blocked ∧
    ¬ ∃ m1, ClientManager.startStep encode hubABC
      ⟨Event.register 3, allWaitingBut 2 Pump.stalled⟩ = Outcome.ok m1 := by
  refine ⟨rfl, by decide, by decide, by decide, rfl, ?_⟩
  rintro ⟨m1, h⟩
  have hb : ClientManager.startStep encode hubABC
      ⟨Event.register 3, allWaitingBut 2 Pump.stalled⟩ = Outcome.blocked := rfl
  rw [hb] at h
  cases h

/-- C6, the code at the failing input.  In `hubABC` the pump of C does not take
messages.  The broadcast loop closes the channel of C and deletes C.  The
helper `send`, called with an excluded connection that is not a member, does
a blocking send instead: with a busy pump it hands the message over and keeps C
a member with an open channel; with a stalled pump it never returns, and so the
handlers of `Register` and of `Unregister` never return either. -/
theorem send_blocks_where_broadcast_evicts :
    ClientManager.broadcastLoop (allWaitingBut 2 Pump.busy) "x" hubABC.clients hubABC =
      Outcome.ok (hubAB "x") ∧
    hubABC.send (allWaitingBut 2 Pump.busy) "x" 3 = Outcome.ok (hubABCAfter "x") ∧
    2 ∈ (hubABCAfter "x").clients ∧ ((hubABCAfter "x").chan 2).closed = false ∧
    2 ∉ (hubAB "x").clients ∧ ((hubAB "x").chan 2).closed = true ∧
    ClientManager.broadcastLoop (allWaitingBut 2 Pump.stalled) "x" hubABC.clients hubABC =
      Outcome.ok (hubAB "x") ∧
    hubABC.send (allWaitingBut 2 Pump.stalled) "x" 3 = Outcome.blocked ∧
    ClientManager.startStep encode hubABC ⟨Event.register 3, allWaitingBut 2 Pump.stalled⟩ =
      Outcome.blocked ∧
    ClientManager.startStep encode hubABC ⟨Event.unregister 0, allWaitingBut 2 Pump.stalled⟩ =
      Outcome.blocked :=
  ⟨rfl, rfl, by decide, by decide, by decide, by decide, rfl, rfl, rfl, rfl⟩

/-- C9. Envelope round trip: decoding the wire text of an envelope gives the
envelope back; the keys of the wire text are those of the fields that are
present, so a field that is empty at encoding time is no key of the text, and it
is empty after decoding. -/
theorem envelope_roundtrip (m : Message) :
    decode (encode m) = some m ∧
    parseObject (encode m).data = some m.fields ∧
    ("sender" ∈ m.fields.map Prod.fst ↔ m.Sender ≠ "") ∧
    ("recipient" ∈ m.fields.map Prod.fst ↔ m.Recipient ≠ "") ∧
    ("content" ∈ m.fields.map Prod.fst ↔ m.Content ≠ "") := by
  refine ⟨decode_encode m, parseObject_render m.fields, ?_, ?_, ?_⟩ <;>
  · obtain ⟨s, r, c⟩ := m
    by_cases hs : s = "" <;> by_cases hr : r = "" <;> by_cases hc : c = "" <;>
      simp [Message.fields, hs, hr, hc]

/-- Witness of C9: the envelope with sender "u1" and content "hi". -/
theorem envelope_roundtrip_witness :
    encode { Sender := "u1", Content := "hi" } =
      "\x7b\"sender\":\"u1\",\"content\":\"hi\"\x7d" ∧
    (decode (encode { Sender := "u1", Content := "hi" }) =
      some { Sender := "u1", Recipient := "", Content := "hi" } ∧
    parseObject (encode { Sender := "u1", Content := "hi" }).data =
      some [("sender", "u1"), ("content", "hi")]) :=
  ⟨by decide,
    (envelope_roundtrip { Sender := "u1", Content := "hi" }).1,
    (envelope_roundtrip { Sender := "u1", Content := "hi" }).2.1⟩

/-- C10, amended. The outbound pump writes every message that came through the
queue, in queue order and once each, whatever the outcomes of the writes; it
sends nothing to the hub; when the queue is closed it then writes exactly one
close frame, returns and closes the socket, and while the queue is open it
makes no other call and does not return.  When no write fails this is the pump
of the specification. -/
theorem write_drains_queue (fails : Nat → Bool) (chan : Chan) :
    ((Client.write fails chan).calls.take chan.queue.length).map SocketCall.text? =
      chan.queue.map some ∧
    (Client.write fails chan).calls.drop chan.queue.length =
      (if chan.closed = true then
        [SocketCall.writeClose (fails chan.queue.length), SocketCall.close]
      else []) ∧
    (Client.write fails chan).toHub = [] ∧
    (Client.write fails chan).returned = chan.closed ∧
    ((∀ n, fails n = false) → Client.write fails chan = writeSpec fails chan) := by
  obtain ⟨h1, h2, h3, h4⟩ := writeLoop_spec fails chan.queue 0 chan.closed
  refine ⟨h1, ?_, h3, h4, fun hno => writeLoop_eq_spec fails hno chan.queue 0 chan.closed⟩
  rw [Client.write, h2, Nat.zero_add]

/-- Witness of C10, amended: two messages, then the queue is closed, and no
write fails. -/
theorem write_drains_queue_witness :
    (Client.write noWriteFails { closed := true, queue := ["a", "b"] }).calls =
      [SocketCall.writeText "a" false, SocketCall.writeText "b" false,
       SocketCall.writeClose false, SocketCall.close] ∧
    Client.write noWriteFails { closed := true, queue := ["a", "b"] } =
      writeSpec noWriteFails { closed := true, queue := ["a", "b"] } :=
  ⟨by decide,
    (write_drains_queue noWriteFails { closed := true, queue := ["a", "b"] }).2.2.2.2
      (fun _ => rfl)⟩

/-- Counterexample to C10 as stated: the first write fails and the pump still
writes the second message, then the close frame; the pump of the specification
stops after the failed write. -/
theorem write_continues_after_failed_write :
    (Client.write firstWriteFails { closed := true, queue := ["a", "b"] }).calls =
      [SocketCall.writeText "a" true, SocketCall.writeText "b" false,
       SocketCall.writeClose false, SocketCall.close] ∧
    (writeSpec firstWriteFails { closed := true, queue := ["a", "b"] }).calls =
      [SocketCall.writeText "a" true, SocketCall.close] ∧
    Client.write firstWriteFails { closed := true, queue := ["a", "b"] } ≠
      writeSpec firstWriteFails { closed := true, queue := ["a", "b"] } := by
  decide

end Chat
